import Mathlib

/-!
Verification of the lazy stream engine in
`src/sage/data_structures/stream.py`.

The development shallowly embeds the stream data model and the operator
implementations of the source file.  A stream node is represented by its
coefficient rule together with its (approximate) order bound; the caching
layers (`Stream_inexact.__getitem__`, sparse and dense) are embedded as
explicit state-passing functions; fallible constructions return
`Option`/`Except`.
-/

set_option linter.unusedSectionVars false
set_option linter.unusedVariables false

section StreamModel

variable {R : Type} [CommRing R] [DecidableEq R]

/-- A stream node as seen by the indexing contract: the `_approximate_order`
bound together with the coefficient rule `get_coefficient` used by
`Stream_inexact.__getitem__` for indices at or above the bound.
(`Stream.__init__` / `Stream_inexact` of the source.) -/
structure StreamV (R : Type) where
  ao : ℤ
  coeff : ℤ → R

/-- `Stream_inexact.__getitem__`, value semantics: the leading shortcut
`if n < self._approximate_order: return ZZ.zero()` followed by the
coefficient rule.  (File `stream.py`, lines 341-420; the caching state
machinery of the same method is embedded separately below.) -/
def StreamV.item (s : StreamV R) (n : ℤ) : R :=
  if n < s.ao then 0 else s.coeff n

/-- The true order of a stream value: `o` is the first index with a
non-zero coefficient. -/
def StreamV.hasOrder (s : StreamV R) (o : ℤ) : Prop :=
  s.item o ≠ 0 ∧ ∀ m, m < o → s.item m = 0

namespace Stream_add

/-- `Stream_add._approximate_order`: the minimum of the children's bounds. -/
def approximate_order (l r : StreamV R) : ℤ :=
  min l.ao r.ao

/-- `Stream_add.get_coefficient`: `self._left[n] + self._right[n]`. -/
def get_coefficient (l r : StreamV R) (n : ℤ) : R :=
  l.item n + r.item n

/-- The addition node as a stream value. -/
def node (l r : StreamV R) : StreamV R :=
  ⟨approximate_order l r, get_coefficient l r⟩

end Stream_add

namespace Stream_sub

/-- `Stream_sub._approximate_order`: the minimum of the children's bounds. -/
def approximate_order (l r : StreamV R) : ℤ :=
  min l.ao r.ao

/-- `Stream_sub.get_coefficient`: `self._left[n] - self._right[n]`. -/
def get_coefficient (l r : StreamV R) (n : ℤ) : R :=
  l.item n - r.item n

/-- The subtraction node as a stream value. -/
def node (l r : StreamV R) : StreamV R :=
  ⟨approximate_order l r, get_coefficient l r⟩

end Stream_sub

omit [CommRing R] [DecidableEq R] in
theorem StreamV.item_eq_zero_of_lt_ao [CommRing R] (s : StreamV R) {n : ℤ} (h : n < s.ao) :
    s.item n = 0 := by
  simp [StreamV.item, h]

end StreamModel

section ClaimC1

variable {R : Type} [CommRing R] [DecidableEq R]

/-- Claim C1: for every pair of streams `a` and `b` over a matching ring and
every integer `n`, the addition stream satisfies
`Stream_add(a,b)[n] = a[n] + b[n]` and the subtraction stream satisfies
`Stream_sub(a,b)[n] = a[n] - b[n]`, including indices below the children's
approximate orders, where the indexing shortcut returns zero. -/
theorem claim_C1_add_sub_pointwise (a b : StreamV R) (n : ℤ) :
    (Stream_add.node a b).item n = a.item n + b.item n ∧
    (Stream_sub.node a b).item n = a.item n - b.item n := by
  constructor
  · by_cases h : n < Stream_add.approximate_order a b
    · have ha : a.item n = 0 :=
        a.item_eq_zero_of_lt_ao (lt_of_lt_of_le h (min_le_left _ _))
      have hb : b.item n = 0 :=
        b.item_eq_zero_of_lt_ao (lt_of_lt_of_le h (min_le_right _ _))
      have hz : (Stream_add.node a b).item n = 0 :=
        StreamV.item_eq_zero_of_lt_ao _ h
      rw [hz, ha, hb, add_zero]
    · simp [Stream_add.node, StreamV.item, h, Stream_add.get_coefficient]
  · by_cases h : n < Stream_sub.approximate_order a b
    · have ha : a.item n = 0 :=
        a.item_eq_zero_of_lt_ao (lt_of_lt_of_le h (min_le_left _ _))
      have hb : b.item n = 0 :=
        b.item_eq_zero_of_lt_ao (lt_of_lt_of_le h (min_le_right _ _))
      have hz : (Stream_sub.node a b).item n = 0 :=
        StreamV.item_eq_zero_of_lt_ao _ h
      rw [hz, ha, hb, sub_zero]
    · simp [Stream_sub.node, StreamV.item, h, Stream_sub.get_coefficient]

end ClaimC1

section Derivative

variable {R : Type} [CommRing R] [DecidableEq R]

namespace Stream_derivative

/-- `Stream_derivative._approximate_order`:
`if 0 <= self._series._approximate_order <= self._shift: return 0`
and `self._series._approximate_order - self._shift` otherwise. -/
def approximate_order (s : StreamV R) (shift : ℕ) : ℤ :=
  if 0 ≤ s.ao ∧ s.ao ≤ shift then 0 else s.ao - shift

/-- `Stream_derivative.__getitem__`:
`prod(n + k for k in range(1, self._shift + 1)) * self._series[n + self._shift]`.
Note that this `__getitem__` performs no shortcut below the approximate
order; it always evaluates the product formula. -/
def getitem (s : StreamV R) (shift : ℕ) (n : ℤ) : R :=
  (∏ k in Finset.Icc 1 shift, ((n + k : ℤ) : R)) * s.item (n + shift)

end Stream_derivative

/-- Claim C7: for the derivative stream with shift `k` applied to a source
stream, the coefficient at every integer `n` equals
`(n+1)(n+2)...(n+k) * source[n+k]`, and the approximate order is the
source's approximate order minus `k`, except that when the source's
approximate order lies in `[0, k]` the result's approximate order
defaults to `0`. -/
theorem claim_C7_derivative (s : StreamV R) (k : ℕ) (n : ℤ) :
    Stream_derivative.getitem s k n =
      (∏ j in Finset.range k, ((n + j + 1 : ℤ) : R)) * s.item (n + k) ∧
    Stream_derivative.approximate_order s k =
      (if 0 ≤ s.ao ∧ s.ao ≤ k then 0 else s.ao - k) := by
  refine ⟨?_, rfl⟩
  have hprod : (∏ j in Finset.Icc 1 k, ((n + j : ℤ) : R)) =
      ∏ j in Finset.range k, ((n + j + 1 : ℤ) : R) := by
    induction k with
    | zero => simp
    | succ m ih =>
        rw [Finset.prod_Icc_succ_top (by omega : 1 ≤ m + 1), ih,
          Finset.prod_range_succ]
        push_cast
        ring
  rw [Stream_derivative.getitem, hprod]

end Derivative

section SparseCache

variable {R : Type} [CommRing R] [DecidableEq R]

/-- Lookup in an association-list model of the sparse cache dictionary
(`self._cache` of a sparse `Stream_inexact`).  Insertion is modelled by
prepending, so the most recent binding wins. -/
def clookup (n : ℤ) : List (ℤ × R) → Option R
  | [] => none
  | (k, v) :: rest => if n = k then some v else clookup n rest

/-- State of a sparse `Stream_inexact`: the coefficient cache, the
`_approximate_order` bound and the `_true_order` flag. -/
structure SpState (R : Type) where
  cache : List (ℤ × R)
  ao : ℤ
  tord : Bool

/-- The zero-run scan of `Stream_inexact.__getitem__` (sparse branch):
`while ao in self._cache: if self._cache[ao]: self._true_order = True;
break; ao += 1`.  The fuel argument bounds the number of iterations; the
caller passes `cache.length + 1`, which suffices because the consecutive
cached indices consumed by the loop are distinct keys of the cache. -/
def scanCache (cache : List (ℤ × R)) : ℤ → ℕ → ℤ × Bool
  | ao, 0 => (ao, false)
  | ao, fuel + 1 =>
    match clookup ao cache with
    | none => (ao, false)
    | some v => if v ≠ 0 then (ao, true) else scanCache cache (ao + 1) fuel

/-- `Stream_inexact.__getitem__`, sparse branch, as a state transformer:
returns the coefficient together with the updated stream state.  `f` is
the stream's `get_coefficient` rule. -/
def sparseItem (f : ℤ → R) (st : SpState R) (n : ℤ) : R × SpState R :=
  if n < st.ao then (0, st)
  else
    match clookup n st.cache with
    | some c => (c, st)
    | none =>
      let c := f n
      if st.tord = true ∨ st.ao < n then (c, ⟨(n, c) :: st.cache, st.ao, st.tord⟩)
      else if c ≠ 0 then (c, ⟨(n, c) :: st.cache, st.ao, true⟩)
      else
        let r := scanCache st.cache (st.ao + 1) (st.cache.length + 1)
        (c, ⟨st.cache, r.1, r.2⟩)

/-- The order-tracking invariant of a sparse stream state with rule `f`:
all coefficients below the approximate order vanish, every cache entry
agrees with the rule, and when the true-order flag is set the coefficient
at the approximate order is non-zero. -/
structure SpInv (f : ℤ → R) (st : SpState R) : Prop where
  lower : ∀ m, m < st.ao → f m = 0
  cacheOk : ∀ k v, clookup k st.cache = some v → v = f k
  trueOk : st.tord = true → f st.ao ≠ 0

theorem scanCache_zero (cache : List (ℤ × R)) (ao : ℤ) :
    scanCache cache ao 0 = (ao, false) := rfl

theorem scanCache_succ_none (cache : List (ℤ × R)) {ao : ℤ} (k : ℕ)
    (h : clookup ao cache = none) :
    scanCache cache ao (k + 1) = (ao, false) := by
  rw [scanCache, h]

theorem scanCache_succ_some (cache : List (ℤ × R)) {ao : ℤ} (k : ℕ) {v : R}
    (h : clookup ao cache = some v) :
    scanCache cache ao (k + 1) =
      if v ≠ 0 then (ao, true) else scanCache cache (ao + 1) k := by
  rw [scanCache, h]

theorem scanCache_ge (cache : List (ℤ × R)) (ao : ℤ) (fuel : ℕ) :
    ao ≤ (scanCache cache ao fuel).1 := by
  induction fuel generalizing ao with
  | zero => simp [scanCache_zero]
  | succ k ih =>
      cases hc : clookup ao cache with
      | none => rw [scanCache_succ_none cache k hc]
      | some v =>
          rw [scanCache_succ_some cache k hc]
          by_cases hv : v ≠ 0
          · simp [hv]
          · simp only [hv, if_false]
            exact le_trans (by omega) (ih (ao + 1))

theorem scanCache_zeros (cache : List (ℤ × R)) (ao : ℤ) (fuel : ℕ) :
    ∀ m, ao ≤ m → m < (scanCache cache ao fuel).1 →
      clookup m cache = some 0 := by
  induction fuel generalizing ao with
  | zero => simp [scanCache_zero]; omega
  | succ k ih =>
      intro m hm hm2
      cases hc : clookup ao cache with
      | none => rw [scanCache_succ_none cache k hc] at hm2; simp at hm2; omega
      | some v =>
          rw [scanCache_succ_some cache k hc] at hm2
          by_cases hv : v ≠ 0
          · simp [hv] at hm2; omega
          · simp only [hv, if_false] at hm2
            push_neg at hv
            rcases eq_or_lt_of_le hm with rfl | hlt
            · rw [hc, hv]
            · exact ih (ao + 1) m (by omega) hm2

theorem scanCache_found (cache : List (ℤ × R)) (ao : ℤ) (fuel : ℕ)
    (h : (scanCache cache ao fuel).2 = true) :
    ∃ v, clookup (scanCache cache ao fuel).1 cache = some v ∧ v ≠ 0 := by
  induction fuel generalizing ao with
  | zero => simp [scanCache_zero] at h
  | succ k ih =>
      cases hc : clookup ao cache with
      | none => rw [scanCache_succ_none cache k hc] at h; simp at h
      | some v =>
          rw [scanCache_succ_some cache k hc] at h ⊢
          by_cases hv : v ≠ 0
          · rw [if_pos hv]
            exact ⟨v, hc, hv⟩
          · rw [if_neg hv] at h ⊢
            exact ih (ao + 1) h

theorem clookup_cons (k n : ℤ) (c : R) (cache : List (ℤ × R)) :
    clookup k ((n, c) :: cache) =
      if k = n then some c else clookup k cache := rfl

theorem sparseItem_low (f : ℤ → R) (st : SpState R) {n : ℤ} (h : n < st.ao) :
    sparseItem f st n = (0, st) := by
  rw [sparseItem, if_pos h]

theorem sparseItem_hit (f : ℤ → R) (st : SpState R) {n : ℤ} {c : R}
    (h : ¬ n < st.ao) (hc : clookup n st.cache = some c) :
    sparseItem f st n = (c, st) := by
  rw [sparseItem, if_neg h, hc]

theorem sparseItem_miss_hi (f : ℤ → R) (st : SpState R) {n : ℤ}
    (h : ¬ n < st.ao) (hc : clookup n st.cache = none)
    (h2 : st.tord = true ∨ st.ao < n) :
    sparseItem f st n = (f n, ⟨(n, f n) :: st.cache, st.ao, st.tord⟩) := by
  rw [sparseItem, if_neg h, hc]
  simp only [if_pos h2]

theorem sparseItem_miss_nz (f : ℤ → R) (st : SpState R) {n : ℤ}
    (h : ¬ n < st.ao) (hc : clookup n st.cache = none)
    (h2 : ¬ (st.tord = true ∨ st.ao < n)) (h3 : f n ≠ 0) :
    sparseItem f st n = (f n, ⟨(n, f n) :: st.cache, st.ao, true⟩) := by
  rw [sparseItem, if_neg h, hc]
  simp only [if_neg h2, if_pos h3]

theorem sparseItem_miss_z (f : ℤ → R) (st : SpState R) {n : ℤ}
    (h : ¬ n < st.ao) (hc : clookup n st.cache = none)
    (h2 : ¬ (st.tord = true ∨ st.ao < n)) (h3 : ¬ f n ≠ 0) :
    sparseItem f st n =
      (f n, ⟨st.cache,
        (scanCache st.cache (st.ao + 1) (st.cache.length + 1)).1,
        (scanCache st.cache (st.ao + 1) (st.cache.length + 1)).2⟩) := by
  rw [sparseItem, if_neg h, hc]
  simp only [if_neg h2, if_neg h3]

/-- The value returned by the sparse `__getitem__` always equals the
stream's coefficient rule at the requested index, on states satisfying
the order-tracking invariant. -/
theorem sparseItem_value (f : ℤ → R) (st : SpState R) (n : ℤ)
    (hinv : SpInv f st) : (sparseItem f st n).1 = f n := by
  by_cases h1 : n < st.ao
  · rw [sparseItem_low f st h1]
    exact (hinv.lower n h1).symm
  · cases hc : clookup n st.cache with
    | some c => rw [sparseItem_hit f st h1 hc]; exact hinv.cacheOk n c hc
    | none =>
        by_cases h2 : st.tord = true ∨ st.ao < n
        · rw [sparseItem_miss_hi f st h1 hc h2]
        · by_cases h3 : f n ≠ 0
          · rw [sparseItem_miss_nz f st h1 hc h2 h3]
          · rw [sparseItem_miss_z f st h1 hc h2 h3]

/-- The sparse `__getitem__` preserves the order-tracking invariant,
refines the approximate order only upward, and never changes the
approximate order nor resets the flag once the true order is known. -/
theorem sparseItem_preserves (f : ℤ → R) (st : SpState R) (n : ℤ)
    (hinv : SpInv f st) :
    SpInv f (sparseItem f st n).2 ∧
    st.ao ≤ (sparseItem f st n).2.ao ∧
    (st.tord = true →
      (sparseItem f st n).2.ao = st.ao ∧ (sparseItem f st n).2.tord = true) := by
  by_cases h1 : n < st.ao
  · rw [sparseItem_low f st h1]
    exact ⟨hinv, le_refl _, fun ht => ⟨rfl, ht⟩⟩
  · cases hc : clookup n st.cache with
    | some c =>
        rw [sparseItem_hit f st h1 hc]
        exact ⟨hinv, le_refl _, fun ht => ⟨rfl, ht⟩⟩
    | none =>
        by_cases h2 : st.tord = true ∨ st.ao < n
        · rw [sparseItem_miss_hi f st h1 hc h2]
          refine ⟨⟨hinv.lower, ?_, hinv.trueOk⟩, le_refl _, fun ht => ⟨rfl, ht⟩⟩
          intro k v hkv
          rw [clookup_cons] at hkv
          by_cases hk : k = n
          · rw [if_pos hk] at hkv
            cases hkv
            rw [hk]
          · rw [if_neg hk] at hkv
            exact hinv.cacheOk k v hkv
        · by_cases h3 : f n ≠ 0
          · rw [sparseItem_miss_nz f st h1 hc h2 h3]
            push_neg at h2
            have hn : n = st.ao := le_antisymm h2.2 (not_lt.mp h1)
            refine ⟨⟨hinv.lower, ?_, fun _ => hn ▸ h3⟩, le_refl _, ?_⟩
            · intro k v hkv
              rw [clookup_cons] at hkv
              by_cases hk : k = n
              · rw [if_pos hk] at hkv
                cases hkv
                rw [hk]
              · rw [if_neg hk] at hkv
                exact hinv.cacheOk k v hkv
            · intro ht
              exact absurd ht (by simpa using h2.1)
          · rw [sparseItem_miss_z f st h1 hc h2 h3]
            push_neg at h2 h3
            have hn : n = st.ao := le_antisymm h2.2 (not_lt.mp h1)
            have hge := scanCache_ge st.cache (st.ao + 1) (st.cache.length + 1)
            refine ⟨⟨?_, hinv.cacheOk, ?_⟩, le_trans (by omega : st.ao ≤ st.ao + 1) hge, ?_⟩
            · intro m hm
              by_cases hm2 : m < st.ao
              · exact hinv.lower m hm2
              · rcases eq_or_lt_of_le (not_lt.mp hm2) with rfl | hgt
                · rw [← hn]; exact h3
                · have := scanCache_zeros st.cache (st.ao + 1)
                    (st.cache.length + 1) m (by omega) hm
                  exact (hinv.cacheOk m 0 this).symm
            · intro ht
              obtain ⟨v, hv, hvnz⟩ := scanCache_found st.cache (st.ao + 1)
                (st.cache.length + 1) ht
              have := hinv.cacheOk _ v hv
              rw [← this]
              exact hvnz
            · intro ht
              exact absurd ht (by simpa using h2.1)

end SparseCache

section DenseCache

variable {R : Type} [CommRing R] [DecidableEq R]

/-- State of a dense `Stream_inexact`: the contiguous coefficient cache
(starting at the approximate order once the true order is known), the
`_approximate_order` bound and the `_true_order` flag.  The position of
the restartable generator `self._iter` is determined by the state: it is
`ao + cache.length` (the generator yields `get_coefficient(ao)`,
`get_coefficient(ao+1)`, ... and every consumed value that was not
discarded as a leading zero was appended to the cache). -/
structure DnState (R : Type) where
  cache : List R
  ao : ℤ
  tord : Bool

/-- The order-refinement loop of `Stream_inexact.__getitem__` (dense
branch): `while not self._true_order and n >= self._approximate_order:
c = next(self._iter); if c: self._true_order = True;
self._cache.append(c); else: self._approximate_order += 1`.
Returns the refined approximate order and the true-order flag; in the
found case the single appended coefficient is `f` at the returned
order. -/
def denseRefine (f : ℤ → R) (ao n : ℤ) : ℤ × Bool :=
  if h : ao ≤ n then
    if f ao ≠ 0 then (ao, true) else denseRefine f (ao + 1) n
  else (ao, false)
termination_by (n + 1 - ao).toNat
decreasing_by omega

/-- The cache-extension step of `Stream_inexact.__getitem__` (dense
branch, once the true order is known):
`i = n - self._approximate_order;`
`self._cache.extend(next(self._iter) for _ in range(i - len(self._cache) + 1));`
`return self._cache[i]`.
The generator continues at position `ao + cache.length`. -/
def denseExtend (f : ℤ → R) (cache : List R) (ao n : ℤ) : R × DnState R :=
  let i := (n - ao).toNat
  let cache2 := cache ++ (List.range (i + 1 - cache.length)).map
    (fun j : ℕ => f (ao + (cache.length : ℤ) + (j : ℤ)))
  (cache2.getD i 0, ⟨cache2, ao, true⟩)

/-- `Stream_inexact.__getitem__`, dense branch, as a state transformer.
`f` is the stream's `get_coefficient` rule (the generator
`iterate_coefficients` yields `f` at successive indices).  When the
refinement loop ends without finding the true order we have `n < ao`,
the extension is skipped and zero is returned; when it finds a non-zero
coefficient, the cache holds that single appended value. -/
def denseItem (f : ℤ → R) (st : DnState R) (n : ℤ) : R × DnState R :=
  if n < st.ao then (0, st)
  else if st.tord = true then denseExtend f st.cache st.ao n
  else
    let r := denseRefine f st.ao n
    if r.2 then denseExtend f [f r.1] r.1 n
    else (0, ⟨st.cache, r.1, false⟩)

/-- The order-tracking invariant of a dense stream state with rule `f`:
coefficients below the approximate order vanish, the cache is the
contiguous run of coefficients starting at the approximate order, the
cache is empty until the true order is found, and once the flag is set
the coefficient at the approximate order is non-zero. -/
structure DnInv (f : ℤ → R) (st : DnState R) : Prop where
  lower : ∀ m, m < st.ao → f m = 0
  cacheOk : ∀ i : ℕ, i < st.cache.length → st.cache.getD i 0 = f (st.ao + i)
  emptyOk : st.tord = false → st.cache = []
  trueOk : st.tord = true → f st.ao ≠ 0

theorem denseRefine_ge (f : ℤ → R) (ao n : ℤ) :
    ao ≤ (denseRefine f ao n).1 := by
  rw [denseRefine]
  split
  · split
    · exact le_refl _
    · have := denseRefine_ge f (ao + 1) n
      omega
  · exact le_refl _
termination_by (n + 1 - ao).toNat
decreasing_by omega

theorem denseRefine_zeros (f : ℤ → R) (ao n : ℤ) :
    ∀ m, ao ≤ m → m < (denseRefine f ao n).1 → f m = 0 := by
  intro m hm hm2
  rw [denseRefine] at hm2
  by_cases h : ao ≤ n
  · rw [dif_pos h] at hm2
    by_cases hz : f ao ≠ 0
    · rw [if_pos hz] at hm2; omega
    · rw [if_neg hz] at hm2
      push_neg at hz
      rcases eq_or_lt_of_le hm with rfl | hlt
      · exact hz
      · exact denseRefine_zeros f (ao + 1) n m (by omega) hm2
  · rw [dif_neg h] at hm2; omega
termination_by (n + 1 - ao).toNat
decreasing_by omega

theorem denseRefine_found (f : ℤ → R) (ao n : ℤ)
    (h : (denseRefine f ao n).2 = true) :
    f (denseRefine f ao n).1 ≠ 0 ∧ (denseRefine f ao n).1 ≤ n := by
  rw [denseRefine] at h ⊢
  by_cases h1 : ao ≤ n
  · rw [dif_pos h1] at h ⊢
    by_cases hz : f ao ≠ 0
    · rw [if_pos hz] at h ⊢
      exact ⟨hz, h1⟩
    · rw [if_neg hz] at h ⊢
      exact denseRefine_found f (ao + 1) n h
  · rw [dif_neg h1] at h
    simp at h
termination_by (n + 1 - ao).toNat
decreasing_by omega

theorem denseRefine_notfound (f : ℤ → R) (ao n : ℤ)
    (h : (denseRefine f ao n).2 = false) :
    n < (denseRefine f ao n).1 := by
  rw [denseRefine] at h ⊢
  by_cases h1 : ao ≤ n
  · rw [dif_pos h1] at h ⊢
    by_cases hz : f ao ≠ 0
    · rw [if_pos hz] at h; simp at h
    · rw [if_neg hz] at h ⊢
      exact denseRefine_notfound f (ao + 1) n h
  · rw [dif_neg h1] at h ⊢
    omega
termination_by (n + 1 - ao).toNat
decreasing_by omega

theorem getD_range_map (g : ℕ → R) (k i : ℕ) (h : i < k) :
    ((List.range k).map g).getD i 0 = g i := by
  rw [List.getD_eq_getElem?_getD]
  simp [List.getElem?_range, h]

theorem denseExtend_getD (f : ℤ → R) (cache : List R) (ao n : ℤ)
    (hc : ∀ i : ℕ, i < cache.length → cache.getD i 0 = f (ao + i)) :
    ∀ i : ℕ, i < (denseExtend f cache ao n).2.cache.length →
      (denseExtend f cache ao n).2.cache.getD i 0 = f (ao + i) := by
  intro i hi
  show (cache ++ _).getD i 0 = f (ao + i)
  by_cases h1 : i < cache.length
  · rw [List.getD_append _ _ _ _ h1]
    exact hc i h1
  · push_neg at h1
    rw [List.getD_append_right _ _ _ _ h1]
    have hi2 : i - cache.length < (n - ao).toNat + 1 - cache.length := by
      have : (denseExtend f cache ao n).2.cache.length =
          cache.length + ((n - ao).toNat + 1 - cache.length) := by
        show (cache ++ _).length = _
        rw [List.length_append, List.length_map, List.length_range]
      omega
    rw [getD_range_map _ _ _ hi2]
    congr 1
    omega

theorem denseExtend_len (f : ℤ → R) (cache : List R) (ao n : ℤ) :
    cache.length ≤ (denseExtend f cache ao n).2.cache.length ∧
    (n - ao).toNat < (denseExtend f cache ao n).2.cache.length := by
  constructor
  · show cache.length ≤ (cache ++ _).length
    simp
  · show (n - ao).toNat < (cache ++ _).length
    rw [List.length_append, List.length_map, List.length_range]
    omega

theorem denseExtend_fst (f : ℤ → R) (cache : List R) (ao n : ℤ)
    (hc : ∀ i : ℕ, i < cache.length → cache.getD i 0 = f (ao + i))
    (hn : ao ≤ n) :
    (denseExtend f cache ao n).1 = f n := by
  have hlen := (denseExtend_len f cache ao n).2
  have := denseExtend_getD f cache ao n hc (n - ao).toNat hlen
  show (denseExtend f cache ao n).2.cache.getD (n - ao).toNat 0 = f n
  rw [this]
  congr 1
  omega

/-- The value returned by the dense `__getitem__` always equals the
stream's coefficient rule at the requested index, on states satisfying
the order-tracking invariant. -/
theorem denseItem_value (f : ℤ → R) (st : DnState R) (n : ℤ)
    (hinv : DnInv f st) : (denseItem f st n).1 = f n := by
  rw [denseItem]
  by_cases h1 : n < st.ao
  · rw [if_pos h1]
    exact (hinv.lower n h1).symm
  · rw [if_neg h1]
    by_cases h2 : st.tord = true
    · rw [if_pos h2]
      exact denseExtend_fst f st.cache st.ao n hinv.cacheOk (not_lt.mp h1)
    · rw [if_neg h2]
      cases hr : (denseRefine f st.ao n).2 with
      | true =>
          rw [if_pos hr]
          obtain ⟨hnz, hle⟩ := denseRefine_found f st.ao n hr
          refine denseExtend_fst f _ _ n ?_ hle
          intro i hi
          simp at hi
          simp [hi]
      | false =>
          rw [if_neg (by rw [hr]; exact Bool.false_ne_true)]
          have hlt := denseRefine_notfound f st.ao n hr
          have hge := denseRefine_ge f st.ao n
          by_cases hna : n < st.ao
          · exact (hinv.lower n hna).symm
          · push_neg at hna
            exact (denseRefine_zeros f st.ao n n hna hlt).symm

/-- The dense `__getitem__` preserves the order-tracking invariant,
refines the approximate order only upward, and never changes the
approximate order nor resets the flag once the true order is known. -/
theorem denseItem_preserves (f : ℤ → R) (st : DnState R) (n : ℤ)
    (hinv : DnInv f st) :
    DnInv f (denseItem f st n).2 ∧
    st.ao ≤ (denseItem f st n).2.ao ∧
    (st.tord = true →
      (denseItem f st n).2.ao = st.ao ∧ (denseItem f st n).2.tord = true) := by
  rw [denseItem]
  by_cases h1 : n < st.ao
  · rw [if_pos h1]
    exact ⟨hinv, le_refl _, fun ht => ⟨rfl, ht⟩⟩
  · rw [if_neg h1]
    by_cases h2 : st.tord = true
    · rw [if_pos h2]
      refine ⟨⟨hinv.lower, denseExtend_getD f st.cache st.ao n hinv.cacheOk,
        ?_, ?_⟩, le_refl _, fun _ => ⟨rfl, rfl⟩⟩
      · intro hfalse
        exact Bool.noConfusion hfalse
      · intro _
        exact hinv.trueOk h2
    · rw [if_neg h2]
      cases hr : (denseRefine f st.ao n).2 with
      | true =>
          rw [if_pos hr]
          obtain ⟨hnz, hle⟩ := denseRefine_found f st.ao n hr
          have hge := denseRefine_ge f st.ao n
          refine ⟨⟨?_, ?_, ?_, fun _ => hnz⟩, hge, ?_⟩
          · intro m hm
            by_cases hm2 : m < st.ao
            · exact hinv.lower m hm2
            · exact denseRefine_zeros f st.ao n m (not_lt.mp hm2) hm
          · refine denseExtend_getD f _ _ n ?_
            intro i hi
            simp at hi
            simp [hi]
          · intro hfalse
            exact Bool.noConfusion hfalse
          · intro ht
            exact absurd h2 (by simp [ht])
      | false =>
          rw [if_neg (by rw [hr]; exact Bool.false_ne_true)]
          have hge := denseRefine_ge f st.ao n
          refine ⟨⟨?_, ?_, ?_, ?_⟩, hge, ?_⟩
          · intro m hm
            by_cases hm2 : m < st.ao
            · exact hinv.lower m hm2
            · exact denseRefine_zeros f st.ao n m (not_lt.mp hm2) hm
          · intro i hi
            rw [hinv.emptyOk (by simpa using h2)] at hi
            simp at hi
          · intro _
            exact hinv.emptyOk (by simpa using h2)
          · intro hfalse
            exact Bool.noConfusion hfalse
          · intro ht
            exact absurd h2 (by simp [ht])

end DenseCache

section TruncatedStream

variable {R : Type} [CommRing R] [DecidableEq R]

/-- State of a sparse `Stream_truncated`: the state of the underlying
series (whose cache dictionary is shared), plus the wrapper's own
`_approximate_order` and `_true_order`.  `z` below is `self._shift`. -/
structure TrState (R : Type) where
  ser : SpState R
  ao : ℤ
  tord : Bool

/-- `Stream_truncated.__getitem__` (sparse case) as a state transformer:
below the approximate order return zero; otherwise fetch
`self._series[n - self._shift]` (which may refine the underlying
series' state, mutating the shared cache), then, while the true order is
unknown, rescan the shared cache from `self._approximate_order -
self._shift` for a leading run of cached zeros. -/
def truncItem (f : ℤ → R) (z : ℤ) (st : TrState R) (n : ℤ) : R × TrState R :=
  if n < st.ao then (0, st)
  else if st.tord = true then
    ((sparseItem f st.ser (n - z)).1,
      ⟨(sparseItem f st.ser (n - z)).2, st.ao, st.tord⟩)
  else
    ((sparseItem f st.ser (n - z)).1,
      ⟨(sparseItem f st.ser (n - z)).2,
       (scanCache (sparseItem f st.ser (n - z)).2.cache (st.ao - z)
          ((sparseItem f st.ser (n - z)).2.cache.length + 1)).1 + z,
       (scanCache (sparseItem f st.ser (n - z)).2.cache (st.ao - z)
          ((sparseItem f st.ser (n - z)).2.cache.length + 1)).2⟩)

/-- The order-tracking invariant of a truncated stream state whose
underlying series has rule `f`, with shift `z` and clamp
(`minimal_valuation`) `mv`.  The mathematical sequence of the wrapper is
zero below `mv` and `f (n - z)` from `mv` on. -/
structure TrInv (f : ℤ → R) (z mv : ℤ) (st : TrState R) : Prop where
  serInv : SpInv f st.ser
  lowBound : mv ≤ st.ao
  lower : ∀ m, mv ≤ m → m < st.ao → f (m - z) = 0
  trueOk : st.tord = true → f (st.ao - z) ≠ 0

/-- The truncated `__getitem__` preserves the order-tracking invariant,
refines the wrapper's approximate order only upward, and keeps it fixed
once the true order is known. -/
theorem truncItem_preserves (f : ℤ → R) (z mv : ℤ) (st : TrState R) (n : ℤ)
    (hinv : TrInv f z mv st) :
    TrInv f z mv (truncItem f z st n).2 ∧
    st.ao ≤ (truncItem f z st n).2.ao ∧
    (st.tord = true →
      (truncItem f z st n).2.ao = st.ao ∧ (truncItem f z st n).2.tord = true) := by
  rw [truncItem]
  have hser := sparseItem_preserves f st.ser (n - z) hinv.serInv
  by_cases h1 : n < st.ao
  · rw [if_pos h1]
    exact ⟨hinv, le_refl _, fun ht => ⟨rfl, ht⟩⟩
  · rw [if_neg h1]
    by_cases h2 : st.tord = true
    · rw [if_pos h2]
      exact ⟨⟨hser.1, hinv.lowBound, hinv.lower, fun _ => hinv.trueOk h2⟩,
        le_refl _, fun _ => ⟨rfl, h2⟩⟩
    · rw [if_neg h2]
      have hge := scanCache_ge (sparseItem f st.ser (n - z)).2.cache
        (st.ao - z) ((sparseItem f st.ser (n - z)).2.cache.length + 1)
      refine ⟨⟨hser.1, ?_, ?_, ?_⟩, ?_, fun ht => absurd ht h2⟩
      · show mv ≤ (scanCache (sparseItem f st.ser (n - z)).2.cache (st.ao - z)
          ((sparseItem f st.ser (n - z)).2.cache.length + 1)).1 + z
        have := hinv.lowBound
        omega
      · show ∀ m, mv ≤ m →
          m < (scanCache (sparseItem f st.ser (n - z)).2.cache (st.ao - z)
            ((sparseItem f st.ser (n - z)).2.cache.length + 1)).1 + z →
          f (m - z) = 0
        intro m hm hm2
        by_cases hm3 : m < st.ao
        · exact hinv.lower m hm hm3
        · have hz := scanCache_zeros (sparseItem f st.ser (n - z)).2.cache
            (st.ao - z) ((sparseItem f st.ser (n - z)).2.cache.length + 1)
            (m - z) (by omega) (by omega)
          exact (hser.1.cacheOk (m - z) 0 hz).symm
      · show (scanCache (sparseItem f st.ser (n - z)).2.cache (st.ao - z)
            ((sparseItem f st.ser (n - z)).2.cache.length + 1)).2 = true →
          f ((scanCache (sparseItem f st.ser (n - z)).2.cache (st.ao - z)
            ((sparseItem f st.ser (n - z)).2.cache.length + 1)).1 + z - z) ≠ 0
        intro ht
        obtain ⟨v, hv, hvnz⟩ := scanCache_found
          (sparseItem f st.ser (n - z)).2.cache (st.ao - z)
          ((sparseItem f st.ser (n - z)).2.cache.length + 1) ht
        have heq := hser.1.cacheOk _ v hv
        rw [show (scanCache (sparseItem f st.ser (n - z)).2.cache (st.ao - z)
            ((sparseItem f st.ser (n - z)).2.cache.length + 1)).1 + z - z =
          (scanCache (sparseItem f st.ser (n - z)).2.cache (st.ao - z)
            ((sparseItem f st.ser (n - z)).2.cache.length + 1)).1 by omega,
          ← heq]
        exact hvnz
      · show st.ao ≤ (scanCache (sparseItem f st.ser (n - z)).2.cache
          (st.ao - z) ((sparseItem f st.ser (n - z)).2.cache.length + 1)).1 + z
        omega

end TruncatedStream

section TruncatedDense

variable {R : Type} [CommRing R] [DecidableEq R]

/-- State of a dense `Stream_truncated`: the state of the underlying
dense series (whose contiguous cache list is shared), plus the wrapper's
own `_approximate_order` and `_true_order`. -/
structure TrDnState (R : Type) where
  ser : DnState R
  ao : ℤ
  tord : Bool

/-- Python's slice `cache[start:]` for a possibly negative `start`: a
negative index counts from the end of the list and is clamped to its
start when `-start` exceeds the length. -/
def pySuffix (cache : List R) (start : ℤ) : List R :=
  if start < 0 then cache.drop ((cache.length : ℤ) + start).toNat
  else cache.drop start.toNat

/-- The rescan loop of `Stream_truncated.__getitem__` (dense branch):
`for val in self._cache[start:]: if val: self._true_order = True; break;
self._approximate_order += 1`. -/
def scanVals (vals : List R) (ao : ℤ) : ℤ × Bool :=
  match vals with
  | [] => (ao, false)
  | v :: rest => if v ≠ 0 then (ao, true) else scanVals rest (ao + 1)

/-- `Stream_truncated.__getitem__` (dense branch) as a state
transformer: below the approximate order return zero; otherwise fetch
`ret = self._series[n - self._shift]` (which may refine the shared
dense state), then, while the true order is unknown, rescan the shared
cache from `start = self._approximate_order - offset` with
`offset = self._series._approximate_order + self._shift`, where
`self._cache[start:]` is a Python slice that clamps a negative
`start`. -/
def truncDenseItem (f : ℤ → R) (z : ℤ) (st : TrDnState R) (n : ℤ) :
    R × TrDnState R :=
  if n < st.ao then (0, st)
  else if st.tord = true then
    ((denseItem f st.ser (n - z)).1,
      ⟨(denseItem f st.ser (n - z)).2, st.ao, st.tord⟩)
  else
    ((denseItem f st.ser (n - z)).1,
      ⟨(denseItem f st.ser (n - z)).2,
       (scanVals (pySuffix (denseItem f st.ser (n - z)).2.cache
          (st.ao - ((denseItem f st.ser (n - z)).2.ao + z))) st.ao).1,
       (scanVals (pySuffix (denseItem f st.ser (n - z)).2.cache
          (st.ao - ((denseItem f st.ser (n - z)).2.ao + z))) st.ao).2⟩)

/-- The order-tracking invariant of a dense truncated stream state whose
underlying series has rule `f`, with shift `z` and clamp
(`minimal_valuation`) `mv`: the underlying dense state is sound, the
approximate order is at least the clamp, and the wrapper's coefficients
(`f (m - z)` from `mv` on) vanish below the approximate order.  Unlike
in the sparse case, no exactness of a set `_true_order` flag is
asserted: the dense rescan can set the flag with a stale order. -/
structure TrDnInv (f : ℤ → R) (z mv : ℤ) (st : TrDnState R) : Prop where
  serInv : DnInv f st.ser
  lowBound : mv ≤ st.ao
  lower : ∀ m, mv ≤ m → m < st.ao → f (m - z) = 0

theorem scanVals_ge (vals : List R) (ao : ℤ) : ao ≤ (scanVals vals ao).1 := by
  induction vals generalizing ao with
  | nil => exact le_refl _
  | cons v rest ih =>
      simp only [scanVals]
      by_cases hv : v ≠ 0
      · rw [if_pos hv]
      · rw [if_neg hv]
        have := ih (ao + 1)
        omega

theorem scanVals_found (vals : List R) (ao : ℤ)
    (h : (scanVals vals ao).2 = true) :
    ∃ k : ℕ, (scanVals vals ao).1 = ao + k ∧ k < vals.length ∧
      vals.getD k 0 ≠ 0 ∧ ∀ j : ℕ, j < k → vals.getD j 0 = 0 := by
  induction vals generalizing ao with
  | nil => exact absurd h (by simp [scanVals])
  | cons v rest ih =>
      by_cases hv : v ≠ 0
      · refine ⟨0, ?_, ?_, ?_, ?_⟩
        · simp [scanVals, hv]
        · simp
        · simpa using hv
        · intro j hj
          omega
      · have hstep : scanVals (v :: rest) ao = scanVals rest (ao + 1) := by
          simp only [scanVals]
          rw [if_neg hv]
        rw [hstep] at h ⊢
        obtain ⟨k, h1, h2, h3, h4⟩ := ih (ao + 1) h
        push_neg at hv
        refine ⟨k + 1, ?_, ?_, ?_, ?_⟩
        · rw [h1]
          push_cast
          ring
        · simpa using Nat.succ_lt_succ h2
        · simpa [List.getD_cons_succ] using h3
        · intro j hj
          cases j with
          | zero => simpa [List.getD_cons_zero] using hv
          | succ j' =>
              simpa [List.getD_cons_succ] using h4 j' (by omega)

theorem scanVals_notfound (vals : List R) (ao : ℤ)
    (h : (scanVals vals ao).2 = false) :
    (scanVals vals ao).1 = ao + vals.length ∧
      ∀ j : ℕ, j < vals.length → vals.getD j 0 = 0 := by
  induction vals generalizing ao with
  | nil =>
      refine ⟨by simp [scanVals], ?_⟩
      intro j hj
      simp at hj
  | cons v rest ih =>
      by_cases hv : v ≠ 0
      · exact absurd h (by simp [scanVals, hv])
      · have hstep : scanVals (v :: rest) ao = scanVals rest (ao + 1) := by
          simp only [scanVals]
          rw [if_neg hv]
        rw [hstep] at h ⊢
        obtain ⟨h1, h2⟩ := ih (ao + 1) h
        push_neg at hv
        refine ⟨by rw [h1]; simp only [List.length_cons]; push_cast; ring, ?_⟩
        intro j hj
        cases j with
        | zero => simpa [List.getD_cons_zero] using hv
        | succ j' =>
            simpa [List.getD_cons_succ] using h2 j'
              (by simpa using Nat.lt_of_succ_lt_succ hj)

theorem getD_drop (cache : List R) (t j : ℕ) (h : t + j < cache.length) :
    (cache.drop t).getD j 0 = cache.getD (t + j) 0 := by
  have hj : j < (cache.drop t).length := by
    rw [List.length_drop]
    omega
  rw [List.getD_eq_getElem _ _ hj, List.getD_eq_getElem _ _ h]
  exact List.getElem_drop cache

theorem pySuffix_zero_entry (f : ℤ → R) (cache : List R) (sao start : ℤ)
    (hser : ∀ i : ℕ, i < cache.length → cache.getD i 0 = f (sao + i))
    (hlow : ∀ m, m < sao → f m = 0)
    (j : ℕ) (hj : j < (pySuffix cache start).length)
    (hz : (pySuffix cache start).getD j 0 = 0) :
    f (sao + start + j) = 0 := by
  rw [pySuffix] at hj hz
  by_cases hs : start < 0
  · rw [if_pos hs] at hj hz
    rw [List.length_drop] at hj
    apply hlow
    omega
  · rw [if_neg hs] at hj hz
    rw [List.length_drop] at hj
    have ht : start.toNat + j < cache.length := by omega
    rw [getD_drop cache start.toNat j ht] at hz
    have hv := hser (start.toNat + j) ht
    rw [hz] at hv
    have harg : sao + start + (j : ℤ) = sao + ((start.toNat + j : ℕ) : ℤ) := by
      push_cast
      omega
    rw [harg]
    exact hv.symm

theorem pySuffix_entry_nonneg (f : ℤ → R) (cache : List R) (sao start : ℤ)
    (hser : ∀ i : ℕ, i < cache.length → cache.getD i 0 = f (sao + i))
    (hs : 0 ≤ start) (j : ℕ) (hj : j < (pySuffix cache start).length) :
    (pySuffix cache start).getD j 0 = f (sao + start + j) := by
  rw [pySuffix, if_neg (by omega)] at hj ⊢
  rw [List.length_drop] at hj
  have ht : start.toNat + j < cache.length := by omega
  rw [getD_drop cache start.toNat j ht, hser (start.toNat + j) ht]
  congr 1
  push_cast
  omega

/-- The dense truncated `__getitem__` preserves the invariant (shared
state soundness, clamp bound, zeros below the approximate order),
refines the wrapper's approximate order only upward, and keeps it fixed
once the true order flag is set. -/
theorem truncDenseItem_preserves (f : ℤ → R) (z mv : ℤ) (st : TrDnState R)
    (n : ℤ) (hinv : TrDnInv f z mv st) :
    TrDnInv f z mv (truncDenseItem f z st n).2 ∧
    st.ao ≤ (truncDenseItem f z st n).2.ao ∧
    (st.tord = true →
      (truncDenseItem f z st n).2.ao = st.ao ∧
      (truncDenseItem f z st n).2.tord = true) := by
  rw [truncDenseItem]
  obtain ⟨hser', hserge, _⟩ := denseItem_preserves f st.ser (n - z) hinv.serInv
  by_cases h1 : n < st.ao
  · rw [if_pos h1]
    exact ⟨hinv, le_refl _, fun ht => ⟨rfl, ht⟩⟩
  · rw [if_neg h1]
    by_cases h2 : st.tord = true
    · rw [if_pos h2]
      exact ⟨⟨hser', hinv.lowBound, hinv.lower⟩, le_refl _, fun _ => ⟨rfl, h2⟩⟩
    · rw [if_neg h2]
      set r := denseItem f st.ser (n - z) with hrdef
      set start := st.ao - (r.2.ao + z) with hstartdef
      set vals := pySuffix r.2.cache start with hvalsdef
      set p := scanVals vals st.ao with hpdef
      have hge : st.ao ≤ p.1 := scanVals_ge vals st.ao
      have hlower : ∀ m, mv ≤ m → m < p.1 → f (m - z) = 0 := by
        intro m hm hm2
        by_cases hm3 : m < st.ao
        · exact hinv.lower m hm hm3
        · push_neg at hm3
          have hidx : m - z = r.2.ao + start + ((m - st.ao).toNat : ℤ) := by
            omega
          rw [hidx]
          cases hsc : p.2 with
          | true =>
              obtain ⟨k, h1k, h2k, h3k, h4k⟩ := scanVals_found vals st.ao hsc
              rw [← hpdef] at h1k
              have hjk : (m - st.ao).toNat < k := by omega
              refine pySuffix_zero_entry f r.2.cache r.2.ao start
                hser'.cacheOk hser'.lower _
                (by show (m - st.ao).toNat < vals.length; omega) (h4k _ hjk)
          | false =>
              obtain ⟨h1k, h2k⟩ := scanVals_notfound vals st.ao hsc
              rw [← hpdef] at h1k
              have hjk : (m - st.ao).toNat < vals.length := by omega
              refine pySuffix_zero_entry f r.2.cache r.2.ao start
                hser'.cacheOk hser'.lower _ hjk (h2k _ hjk)
      refine ⟨⟨hser', ?_, hlower⟩, hge, fun ht => absurd ht h2⟩
      show mv ≤ p.1
      have := hinv.lowBound
      omega

/-- When the rescan of the dense truncated `__getitem__` starts at a
nonnegative slice index, a freshly set true-order flag is exact: the
coefficient at the new approximate order is non-zero and all wrapper
coefficients from the old approximate order up to it vanish. -/
theorem truncDenseItem_exact (f : ℤ → R) (z : ℤ) (st : TrDnState R) (n : ℤ)
    (hser : DnInv f st.ser) (hf : st.tord = false)
    (hstart : 0 ≤ st.ao - ((denseItem f st.ser (n - z)).2.ao + z))
    (ht : (truncDenseItem f z st n).2.tord = true) :
    f ((truncDenseItem f z st n).2.ao - z) ≠ 0 ∧
    ∀ m, st.ao ≤ m → m < (truncDenseItem f z st n).2.ao → f (m - z) = 0 := by
  rw [truncDenseItem] at ht ⊢
  by_cases h1 : n < st.ao
  · rw [if_pos h1] at ht
    rw [hf] at ht
    exact absurd ht (by simp)
  · rw [if_neg h1] at ht ⊢
    rw [if_neg (by rw [hf]; exact Bool.false_ne_true)] at ht ⊢
    dsimp only at ht ⊢
    obtain ⟨hd', hge, _⟩ := denseItem_preserves f st.ser (n - z) hser
    set r := denseItem f st.ser (n - z) with hrdef
    set start := st.ao - (r.2.ao + z) with hstartdef
    set vals := pySuffix r.2.cache start with hvalsdef
    obtain ⟨k, h1k, h2k, h3k, h4k⟩ := scanVals_found vals st.ao ht
    constructor
    · intro hcontra
      rw [h1k] at hcontra
      have hidx : st.ao + (k : ℤ) - z = r.2.ao + start + (k : ℤ) := by omega
      rw [hidx] at hcontra
      have hval := pySuffix_entry_nonneg f r.2.cache r.2.ao start
        hd'.cacheOk hstart k h2k
      exact h3k (hval.trans hcontra)
    · intro m hm hm2
      rw [h1k] at hm2
      have hjk : (m - st.ao).toNat < k := by omega
      have hjlen : (m - st.ao).toNat < vals.length := by omega
      have hval := pySuffix_entry_nonneg f r.2.cache r.2.ao start
        hd'.cacheOk hstart _ hjlen
      have hidx : m - z = r.2.ao + start + (((m - st.ao).toNat : ℕ) : ℤ) := by
        omega
      rw [hidx, ← hval]
      exact h4k _ hjk

end TruncatedDense

section ExactAndZero

variable {R : Type} [CommRing R] [DecidableEq R]

/-- The internal representation of a `Stream_exact`: the stripped
`_initial_coefficients` tuple anchored at `_approximate_order`, the
`_degree` from which the `_constant` tail starts.  Structural equality of
these four fields is exactly `Stream_exact.__eq__`. -/
structure ExactRep (R : Type) where
  initial_coefficients : List R
  approximate_order : ℤ
  degree : ℤ
  constant : R
deriving DecidableEq

namespace Stream_exact

/-- `Stream_exact.__getitem__`: the constant for `n >= self._degree`,
the stored initial coefficient when the offset is in range, and zero
otherwise. -/
def getitem (s : ExactRep R) (n : ℤ) : R :=
  if s.degree ≤ n then s.constant
  else
    let i := n - s.approximate_order
    if i < 0 ∨ (s.initial_coefficients.length : ℤ) ≤ i then 0
    else s.initial_coefficients.getD i.toNat 0

end Stream_exact

namespace Stream_zero

/-- `Stream_zero.__getitem__`: always the additive identity. -/
def getitem (R : Type) [CommRing R] (_ : ℤ) : R := 0

/-- `Stream_zero.order`: `+Infinity`. -/
def order : WithTop ℤ := ⊤

end Stream_zero

/-- Claim C5: the public indexing operation never fails (all the
embedded `__getitem__` implementations are total functions), and it
returns the additive identity for every index below the stream's order:
for sparse and dense inexact streams whose rule vanishes below `o`, for
exact streams below their (exactly known) order, and for the zero
stream everywhere.  The returned value is moreover always the
mathematical coefficient. -/
theorem claim_C5_getitem_total_and_zero_below_order
    (f : ℤ → R) (st : SpState R) (dst : DnState R) (s : ExactRep R)
    (o n : ℤ)
    (hsp : SpInv f st) (hdn : DnInv f dst)
    (hord : ∀ m, m < o → f m = 0)
    (hexact : s.approximate_order ≤ s.degree) :
    ((sparseItem f st n).1 = f n ∧ (n < o → (sparseItem f st n).1 = 0)) ∧
    ((denseItem f dst n).1 = f n ∧ (n < o → (denseItem f dst n).1 = 0)) ∧
    (n < s.approximate_order → Stream_exact.getitem s n = 0) ∧
    Stream_zero.getitem R n = 0 := by
  refine ⟨⟨sparseItem_value f st n hsp, fun hn => ?_⟩,
    ⟨denseItem_value f dst n hdn, fun hn => ?_⟩, fun hn => ?_, rfl⟩
  · rw [sparseItem_value f st n hsp]
    exact hord n hn
  · rw [denseItem_value f dst n hdn]
    exact hord n hn
  · rw [Stream_exact.getitem]
    rw [if_neg (by omega)]
    simp only
    rw [if_pos (Or.inl (by omega))]

/-- Witness for C5 at a concrete instance over `ℤ`. -/
theorem claim_C5_getitem_total_and_zero_below_order_witness :
    ((sparseItem (fun m : ℤ => if 1 ≤ m then (1 : ℤ) else 0)
        ⟨[], 0, false⟩ 0).1 = (if (1:ℤ) ≤ 0 then (1 : ℤ) else 0) ∧
      ((0:ℤ) < 1 → (sparseItem (fun m : ℤ => if 1 ≤ m then (1 : ℤ) else 0)
        ⟨[], 0, false⟩ 0).1 = 0)) ∧
    ((denseItem (fun m : ℤ => if 1 ≤ m then (1 : ℤ) else 0)
        ⟨[], 0, false⟩ 0).1 = (if (1:ℤ) ≤ 0 then (1 : ℤ) else 0) ∧
      ((0:ℤ) < 1 → (denseItem (fun m : ℤ => if 1 ≤ m then (1 : ℤ) else 0)
        ⟨[], 0, false⟩ 0).1 = 0)) ∧
    ((0:ℤ) < (⟨[3], 1, 2, 5⟩ : ExactRep ℤ).approximate_order →
      Stream_exact.getitem (⟨[3], 1, 2, 5⟩ : ExactRep ℤ) 0 = 0) ∧
    Stream_zero.getitem ℤ 0 = 0 :=
  claim_C5_getitem_total_and_zero_below_order
    (fun m : ℤ => if 1 ≤ m then (1 : ℤ) else 0)
    ⟨[], 0, false⟩ ⟨[], 0, false⟩ ⟨[3], 1, 2, 5⟩ 1 0
    ⟨fun m (hm : m < (0:ℤ)) => if_neg (by omega),
      fun k v h => Option.noConfusion h,
      fun ht => Bool.noConfusion ht⟩
    ⟨fun m (hm : m < (0:ℤ)) => if_neg (by omega),
      fun i hi => by simp at hi,
      fun _ => rfl, fun ht => Bool.noConfusion ht⟩
    (fun m hm => if_neg (by omega))
    (by decide)

end ExactAndZero

section ClaimC4

variable {R : Type} [CommRing R] [DecidableEq R]

/-- Counterexample to C4 as stated, in the dense branch of
`Stream_truncated.__getitem__` (part of the cited lines 3135-3178): for
the dense series with rule `1 if n == 10 else 0` declared at approximate
order `0`, wrapped with shift `-5` and minimal valuation `0`, indexing
the wrapper at `6` first computes `self._series[11]`, refining the
underlying order to `10` and filling the shared cache with `[1, 0]`;
the rescan start `0 - (10 + (-5)) = -5` is negative, so the Python
slice `self._cache[-5:]` is clamped to the whole cache, the first
scanned value is the non-zero leading coefficient of the series, and
`_true_order` is set while `_approximate_order` stays `0` — although
the wrapper's first non-zero coefficient `f (n - shift)` sits at index
`5`, not `0`. -/
theorem claim_C4_truncated_dense_counterexample :
    ((truncDenseItem (fun m : ℤ => if m = 10 then (1 : ℤ) else 0) (-5)
        ⟨⟨[], 0, false⟩, 0, false⟩ 6).2.tord = true ∧
      (truncDenseItem (fun m : ℤ => if m = 10 then (1 : ℤ) else 0) (-5)
        ⟨⟨[], 0, false⟩, 0, false⟩ 6).2.ao = 0) ∧
    (∀ m : ℤ, 0 ≤ m → m < 5 →
      (fun m : ℤ => if m = 10 then (1 : ℤ) else 0) (m - (-5)) = 0) ∧
    (fun m : ℤ => if m = 10 then (1 : ℤ) else 0) ((5 : ℤ) - (-5)) = 1 := by
  have hr : denseRefine (fun m : ℤ => if m = 10 then (1 : ℤ) else 0) 0 11 =
      (10, true) := by
    rw [denseRefine]; norm_num
    rw [denseRefine]; norm_num
    rw [denseRefine]; norm_num
    rw [denseRefine]; norm_num
    rw [denseRefine]; norm_num
    rw [denseRefine]; norm_num
    rw [denseRefine]; norm_num
    rw [denseRefine]; norm_num
    rw [denseRefine]; norm_num
    rw [denseRefine]; norm_num
    rw [denseRefine]; norm_num
  have hd : denseItem (fun m : ℤ => if m = 10 then (1 : ℤ) else 0)
      ⟨[], 0, false⟩ 11 = (0, ⟨[1, 0], 10, true⟩) := by
    simp only [denseItem]
    rw [if_neg (by norm_num), if_neg (by norm_num), hr]
    rfl
  have hmain : truncDenseItem (fun m : ℤ => if m = 10 then (1 : ℤ) else 0)
      (-5) ⟨⟨[], 0, false⟩, 0, false⟩ 6 =
      (0, ⟨⟨[1, 0], 10, true⟩, 0, true⟩) := by
    simp only [truncDenseItem]
    rw [if_neg (by norm_num), if_neg (by norm_num)]
    rw [show (6 : ℤ) - (-5) = 11 from by norm_num]
    rw [hd]
    rfl
  refine ⟨⟨?_, ?_⟩, ?_, ?_⟩
  · rw [hmain]
  · rw [hmain]
  · intro m h1 h2
    simp only
    rw [if_neg (by omega)]
  · norm_num

/-- Claim C4 (amended): the order-tracking invariant — coefficients
below `approximate_order` are zero, the approximate order is only ever
refined upward, and it is frozen once `true_order` is set — is preserved
by sparse and dense `Stream_inexact.__getitem__` and by both the sparse
and the dense branch of `Stream_truncated.__getitem__`.  A set
`true_order` flag names the exact index of the first non-zero
coefficient for the sparse and dense `Stream_inexact` operations and for
the sparse `Stream_truncated` branch; in the dense `Stream_truncated`
branch a freshly set flag is exact whenever the rescan's slice start
`self._approximate_order - (self._series._approximate_order +
self._shift)` is nonnegative — with a negative start the Python slice is
clamped and the flag can be set while the approximate order lags the
first non-zero index. -/
theorem claim_C4_order_tracking_amended
    (f : ℤ → R) (st : SpState R) (dst : DnState R) (tst : TrState R)
    (tdst : TrDnState R) (z mv n : ℤ)
    (hsp : SpInv f st) (hdn : DnInv f dst) (htr : TrInv f z mv tst)
    (htd : TrDnInv f z mv tdst) :
    (SpInv f (sparseItem f st n).2 ∧
      st.ao ≤ (sparseItem f st n).2.ao ∧
      (st.tord = true →
        (sparseItem f st n).2.ao = st.ao ∧ (sparseItem f st n).2.tord = true) ∧
      ((sparseItem f st n).2.tord = true →
        f (sparseItem f st n).2.ao ≠ 0 ∧
        ∀ m, m < (sparseItem f st n).2.ao → f m = 0)) ∧
    (DnInv f (denseItem f dst n).2 ∧
      dst.ao ≤ (denseItem f dst n).2.ao ∧
      (dst.tord = true →
        (denseItem f dst n).2.ao = dst.ao ∧ (denseItem f dst n).2.tord = true) ∧
      ((denseItem f dst n).2.tord = true →
        f (denseItem f dst n).2.ao ≠ 0 ∧
        ∀ m, m < (denseItem f dst n).2.ao → f m = 0)) ∧
    (TrInv f z mv (truncItem f z tst n).2 ∧
      tst.ao ≤ (truncItem f z tst n).2.ao ∧
      (tst.tord = true →
        (truncItem f z tst n).2.ao = tst.ao ∧
        (truncItem f z tst n).2.tord = true) ∧
      ((truncItem f z tst n).2.tord = true →
        f ((truncItem f z tst n).2.ao - z) ≠ 0 ∧
        ∀ m, mv ≤ m → m < (truncItem f z tst n).2.ao → f (m - z) = 0)) ∧
    (TrDnInv f z mv (truncDenseItem f z tdst n).2 ∧
      tdst.ao ≤ (truncDenseItem f z tdst n).2.ao ∧
      (tdst.tord = true →
        (truncDenseItem f z tdst n).2.ao = tdst.ao ∧
        (truncDenseItem f z tdst n).2.tord = true) ∧
      (tdst.tord = false →
        0 ≤ tdst.ao - ((denseItem f tdst.ser (n - z)).2.ao + z) →
        (truncDenseItem f z tdst n).2.tord = true →
        f ((truncDenseItem f z tdst n).2.ao - z) ≠ 0 ∧
        ∀ m, tdst.ao ≤ m → m < (truncDenseItem f z tdst n).2.ao →
          f (m - z) = 0)) := by
  obtain ⟨hsp', hsp2, hsp3⟩ := sparseItem_preserves f st n hsp
  obtain ⟨hdn', hdn2, hdn3⟩ := denseItem_preserves f dst n hdn
  obtain ⟨htr', htr2, htr3⟩ := truncItem_preserves f z mv tst n htr
  obtain ⟨htd', htd2, htd3⟩ := truncDenseItem_preserves f z mv tdst n htd
  exact ⟨⟨hsp', hsp2, hsp3,
      fun ht => ⟨hsp'.trueOk ht, hsp'.lower⟩⟩,
    ⟨hdn', hdn2, hdn3,
      fun ht => ⟨hdn'.trueOk ht, hdn'.lower⟩⟩,
    ⟨htr', htr2, htr3,
      fun ht => ⟨htr'.trueOk ht, htr'.lower⟩⟩,
    ⟨htd', htd2, htd3,
      fun hf hs htt =>
        truncDenseItem_exact f z tdst n htd.serInv hf hs htt⟩⟩

/-- Witness for the amended C4 at a concrete instance over `ℤ`. -/
theorem claim_C4_order_tracking_amended_witness :
    ∃ (st' : SpState ℤ) (dst' : DnState ℤ) (tst' : TrState ℤ)
      (tdst' : TrDnState ℤ),
      st' = (sparseItem (fun m : ℤ => if 1 ≤ m then (1 : ℤ) else 0)
        ⟨[], 0, false⟩ 3).2 ∧
      dst' = (denseItem (fun m : ℤ => if 1 ≤ m then (1 : ℤ) else 0)
        ⟨[], 0, false⟩ 3).2 ∧
      tst' = (truncItem (fun m : ℤ => if 1 ≤ m then (1 : ℤ) else 0) 0
        ⟨⟨[], 0, false⟩, 0, false⟩ 3).2 ∧
      tdst' = (truncDenseItem (fun m : ℤ => if 1 ≤ m then (1 : ℤ) else 0) 0
        ⟨⟨[], 0, false⟩, 0, false⟩ 3).2 ∧
      SpInv (fun m : ℤ => if 1 ≤ m then (1 : ℤ) else 0) st' ∧
      (0 : ℤ) ≤ st'.ao ∧
      DnInv (fun m : ℤ => if 1 ≤ m then (1 : ℤ) else 0) dst' ∧
      (0 : ℤ) ≤ dst'.ao ∧
      TrInv (fun m : ℤ => if 1 ≤ m then (1 : ℤ) else 0) 0 0 tst' ∧
      (0 : ℤ) ≤ tst'.ao ∧
      TrDnInv (fun m : ℤ => if 1 ≤ m then (1 : ℤ) else 0) 0 0 tdst' ∧
      (0 : ℤ) ≤ tdst'.ao := by
  have h := claim_C4_order_tracking_amended
    (fun m : ℤ => if 1 ≤ m then (1 : ℤ) else 0)
    ⟨[], 0, false⟩ ⟨[], 0, false⟩ ⟨⟨[], 0, false⟩, 0, false⟩
    ⟨⟨[], 0, false⟩, 0, false⟩ 0 0 3
    ⟨fun m (hm : m < (0:ℤ)) => if_neg (by omega),
      fun k v h => Option.noConfusion h,
      fun ht => Bool.noConfusion ht⟩
    ⟨fun m (hm : m < (0:ℤ)) => if_neg (by omega),
      fun i hi => by simp at hi,
      fun _ => rfl, fun ht => Bool.noConfusion ht⟩
    ⟨⟨fun m (hm : m < (0:ℤ)) => if_neg (by omega),
        fun k v h => Option.noConfusion h,
        fun ht => Bool.noConfusion ht⟩,
      le_refl 0,
      fun m (hm : (0:ℤ) ≤ m) (hm2 : m < (0:ℤ)) =>
        absurd (lt_of_le_of_lt hm hm2) (lt_irrefl 0),
      fun ht => Bool.noConfusion ht⟩
    ⟨⟨fun m (hm : m < (0:ℤ)) => if_neg (by omega),
        fun i hi => by simp at hi,
        fun _ => rfl, fun ht => Bool.noConfusion ht⟩,
      le_refl 0,
      fun m (hm : (0:ℤ) ≤ m) (hm2 : m < (0:ℤ)) =>
        absurd (lt_of_le_of_lt hm hm2) (lt_irrefl 0)⟩
  exact ⟨_, _, _, _, rfl, rfl, rfl, rfl, h.1.1, h.1.2.1, h.2.1.1, h.2.1.2.1,
    h.2.2.1.1, h.2.2.1.2.1, h.2.2.2.1, h.2.2.2.2.1⟩

end ClaimC4

section Dirichlet

variable {R : Type} [CommRing R] [DecidableEq R]

namespace Stream_dirichlet_convolve

/-- `Stream_dirichlet_convolve._approximate_order`: raises `ValueError`
(modelled as `none`) when either child's `_approximate_order` is `<= 0`,
and returns the product of the approximate orders otherwise. -/
def approximate_order (l r : StreamV R) : Option ℤ :=
  if l.ao ≤ 0 ∨ r.ao ≤ 0 then none else some (l.ao * r.ao)

/-- `Stream_dirichlet_convolve.get_coefficient`:
`sum(l * self._right[n//k] for k in divisors(n)
if (k >= self._left._approximate_order
and n // k >= self._right._approximate_order
and (l := self._left[k])))`. -/
def get_coefficient (l r : StreamV R) (n : ℤ) : R :=
  ∑ k in n.toNat.divisors,
    if l.ao ≤ (k : ℤ) ∧ r.ao ≤ ((n.toNat / k : ℕ) : ℤ) ∧ l.item (k : ℤ) ≠ 0
    then l.item (k : ℤ) * r.item ((n.toNat / k : ℕ) : ℤ) else 0

end Stream_dirichlet_convolve

/-- Counterexample to C6 as stated: a pair of streams whose (true)
orders are both `1`, on which the Dirichlet convolution nevertheless
fails, because the left stream's approximate order is still the lower
bound `0`. -/
theorem claim_C6_dirichlet_counterexample :
    (⟨0, fun m => if m = 1 then (1:ℤ) else 0⟩ : StreamV ℤ).hasOrder 1 ∧
    (⟨1, fun _ => (1:ℤ)⟩ : StreamV ℤ).hasOrder 1 ∧
    Stream_dirichlet_convolve.approximate_order
      (⟨0, fun m => if m = 1 then (1:ℤ) else 0⟩ : StreamV ℤ)
      (⟨1, fun _ => (1:ℤ)⟩ : StreamV ℤ) = none := by
  refine ⟨⟨by norm_num [StreamV.item], ?_⟩, ⟨by norm_num [StreamV.item], ?_⟩, rfl⟩
  · intro m hm
    simp only [StreamV.item]
    by_cases h : m < 0
    · rw [if_pos h]
    · rw [if_neg h]
      rw [if_neg (by omega)]
  · intro m hm
    simp only [StreamV.item]
    rw [if_pos (by omega)]

/-- Claim C6 (amended): the Dirichlet convolution is defined exactly for
pairs of streams whose *approximate* orders are both at least 1 — it
fails with a domain error if and only if either approximate order is
`<= 0`; in particular it fails whenever either operand's true order is
below 1 (though it may also fail for operands of order `>= 1` whose
approximate order is still `<= 0`); and, when computed, the coefficient
at `n >= 1` equals the sum over the divisors `k` of `n` of
`left[k] * right[n/k]`. -/
theorem claim_C6_dirichlet_amended (l r : StreamV R) (n : ℤ) :
    (Stream_dirichlet_convolve.approximate_order l r = none ↔
      l.ao ≤ 0 ∨ r.ao ≤ 0) ∧
    (∀ o o', l.hasOrder o → r.hasOrder o' → o ≤ 0 ∨ o' ≤ 0 →
      Stream_dirichlet_convolve.approximate_order l r = none) ∧
    (1 ≤ n →
      Stream_dirichlet_convolve.get_coefficient l r n =
        ∑ k in n.toNat.divisors,
          l.item (k : ℤ) * r.item ((n.toNat / k : ℕ) : ℤ)) := by
  refine ⟨?_, ?_, ?_⟩
  · constructor
    · intro h
      by_contra hc
      rw [Stream_dirichlet_convolve.approximate_order, if_neg hc] at h
      exact Option.noConfusion h
    · intro h
      rw [Stream_dirichlet_convolve.approximate_order, if_pos h]
  · intro o o' ho ho' hle
    have hl : l.ao ≤ o := by
      by_contra hc
      exact ho.1 (l.item_eq_zero_of_lt_ao (by omega))
    have hr : r.ao ≤ o' := by
      by_contra hc
      exact ho'.1 (r.item_eq_zero_of_lt_ao (by omega))
    rw [Stream_dirichlet_convolve.approximate_order, if_pos (by omega)]
  · intro _
    rw [Stream_dirichlet_convolve.get_coefficient]
    refine Finset.sum_congr rfl ?_
    intro k _
    by_cases hc : l.ao ≤ (k : ℤ) ∧ r.ao ≤ ((n.toNat / k : ℕ) : ℤ) ∧
        l.item (k : ℤ) ≠ 0
    · rw [if_pos hc]
    · rw [if_neg hc]
      push_neg at hc
      by_cases h1 : l.ao ≤ (k : ℤ)
      · by_cases h2 : r.ao ≤ ((n.toNat / k : ℕ) : ℤ)
        · have := hc h1 h2
          push_neg at this
          rw [this, zero_mul]
        · rw [r.item_eq_zero_of_lt_ao (by omega), mul_zero]
      · rw [l.item_eq_zero_of_lt_ao (by omega), zero_mul]

/-- Witness for the amended C6 at a concrete instance over `ℤ`:
the all-ones stream convolved with the identity stream at `n = 6`. -/
theorem claim_C6_dirichlet_amended_witness :
    (1:ℤ) ≤ 6 ∧
    Stream_dirichlet_convolve.get_coefficient
      (⟨1, fun _ => (1:ℤ)⟩ : StreamV ℤ) (⟨1, fun m => m⟩ : StreamV ℤ) 6 =
      ∑ k in (6:ℤ).toNat.divisors,
        (⟨1, fun _ => (1:ℤ)⟩ : StreamV ℤ).item (k : ℤ) *
        (⟨1, fun m => m⟩ : StreamV ℤ).item (((6:ℤ).toNat / k : ℕ) : ℤ) :=
  ⟨by decide,
    (claim_C6_dirichlet_amended
      (⟨1, fun _ => (1:ℤ)⟩ : StreamV ℤ)
      (⟨1, fun m => m⟩ : StreamV ℤ) 6).2.2 (by decide)⟩

end Dirichlet

section CauchyInverse

variable {R : Type} [CommRing R] [DecidableEq R]

namespace Stream_cauchy_mul

/-- `Stream_cauchy_mul.get_coefficient`:
`sum(l * self._right[n-k] for k in range(self._left._approximate_order,
n - self._right._approximate_order + 1) if (l := self._left[k]))`. -/
def get_coefficient (l r : StreamV R) (n : ℤ) : R :=
  ∑ k in Finset.Icc l.ao (n - r.ao),
    if l.item k ≠ 0 then l.item k * r.item (n - k) else 0

/-- `Stream_cauchy_mul._approximate_order`: the sum of the children's
approximate orders. -/
def approximate_order (l r : StreamV R) : ℤ := l.ao + r.ao

/-- The Cauchy-product node as a stream value. -/
def node (l r : StreamV R) : StreamV R :=
  ⟨approximate_order l r, get_coefficient l r⟩

end Stream_cauchy_mul

namespace Stream_cauchy_invert

/-- The first `n + 1` coefficients produced by
`Stream_cauchy_invert.iterate_coefficients` (the dense cache after `n+1`
values): the first entry is `self._ainv`, and entry `n+1` is
`-c * self._ainv` where `c` sums `cache[k] * self._series[(n+1) - v - k]`
over the previously produced entries `k = 0, ..., n` (with
`v = -order(g)`, so the series is accessed at `(n+1) + order(g) - k`;
the two loops of the source both read previously produced entries, via
the cache and via `self[k]` respectively). -/
def invertList (g : ℤ → R) (v₀ : ℤ) (a : R) : ℕ → List R
  | 0 => [a]
  | n + 1 => invertList g v₀ a n ++
      [-(∑ k in Finset.range (n + 1),
          (invertList g v₀ a n).getD k 0 * g ((n : ℤ) + 1 + v₀ - (k : ℤ))) * a]

/-- The `n`-th generated coefficient of the Cauchy inverse. -/
def coeff (g : ℤ → R) (v₀ : ℤ) (a : R) (n : ℕ) : R :=
  (invertList g v₀ a n).getD n 0

/-- The Cauchy-inverse node of a stream `g` whose (true) order is
`g.ao`: `_approximate_order = -self._series.order()`, and the
coefficient at index `n` is the `(n - v)`-th generated value, the
series being accessed through its indexing operation. -/
def node (g : StreamV R) (a : R) : StreamV R :=
  ⟨-g.ao, fun n => coeff g.item g.ao a (n + g.ao).toNat⟩

theorem invertList_length (g : ℤ → R) (v₀ : ℤ) (a : R) (n : ℕ) :
    (invertList g v₀ a n).length = n + 1 := by
  induction n with
  | zero => rfl
  | succ m ih => rw [invertList, List.length_append, ih]; rfl

theorem invertList_getD_stable (g : ℤ → R) (v₀ : ℤ) (a : R) (m k : ℕ)
    (h : k ≤ m) :
    (invertList g v₀ a m).getD k 0 = coeff g v₀ a k := by
  induction m with
  | zero =>
      have : k = 0 := by omega
      subst this
      rfl
  | succ m ih =>
      rcases Nat.lt_or_ge k (m + 1) with hk | hk
      · rw [invertList, List.getD_append _ _ _ _
          (by rw [invertList_length]; omega)]
        exact ih (by omega)
      · have : k = m + 1 := by omega
        subst this
        rfl

theorem coeff_succ (g : ℤ → R) (v₀ : ℤ) (a : R) (n : ℕ) :
    coeff g v₀ a (n + 1) =
      -(∑ k in Finset.range (n + 1),
          coeff g v₀ a k * g ((n : ℤ) + 1 + v₀ - (k : ℤ))) * a := by
  show (invertList g v₀ a (n + 1)).getD (n + 1) 0 = _
  rw [invertList, List.getD_append_right _ _ _ _
    (by rw [invertList_length])]
  rw [invertList_length]
  simp only [Nat.sub_self, List.getD_cons_zero]
  congr 1
  congr 1
  refine Finset.sum_congr rfl ?_
  intro k hk
  rw [invertList_getD_stable g v₀ a n k (by simp at hk; omega)]

end Stream_cauchy_invert

theorem sum_Icc_int_eq_range (v : ℤ) (N : ℕ) (F : ℤ → R) :
    ∑ k in Finset.Icc v (v + N), F k =
      ∑ j in Finset.range (N + 1), F (v + j) := by
  induction N with
  | zero => simp
  | succ M ih =>
      have hcast : ((M + 1 : ℕ) : ℤ) = (M : ℤ) + 1 := by push_cast; ring
      have hins : Finset.Icc v (v + (M : ℤ) + 1) =
          insert (v + (M : ℤ) + 1) (Finset.Icc v (v + (M : ℤ))) := by
        ext x
        simp only [Finset.mem_Icc, Finset.mem_insert]
        omega
      rw [hcast, show v + ((M : ℤ) + 1) = v + (M : ℤ) + 1 by ring, hins,
        Finset.sum_insert (by simp only [Finset.mem_Icc]; omega), ih]
      conv_rhs => rw [Finset.sum_range_succ]
      rw [hcast]
      have harg : v + (M : ℤ) + 1 = v + ((M : ℤ) + 1) := by ring
      rw [harg, add_comm]

/-- Claim C2: for every stream `g` with invertible leading coefficient
(at its true order `g.ao`), the Cauchy inverse is a true multiplicative
inverse: for every `n ≥ 0`,
`Stream_cauchy_mul(g, Stream_cauchy_invert(g))[n]` equals `1` when
`n = 0` and `0` otherwise. -/
theorem claim_C2_cauchy_invert_is_inverse (g : StreamV R) (ainv : R)
    (_hlow : ∀ m, m < g.ao → g.coeff m = 0)
    (hone : g.coeff g.ao * ainv = 1) (n : ℤ) (hn : 0 ≤ n) :
    (Stream_cauchy_mul.node g (Stream_cauchy_invert.node g ainv)).item n =
      if n = 0 then 1 else 0 := by
  obtain ⟨N, rfl⟩ : ∃ N : ℕ, n = (N : ℤ) := ⟨n.toNat, (Int.toNat_of_nonneg hn).symm⟩
  have hitem : ∀ x : ℤ, g.ao ≤ x → g.item x = g.coeff x := by
    intro x hx
    rw [StreamV.item, if_neg (by omega)]
  have hmain :
      (Stream_cauchy_mul.node g (Stream_cauchy_invert.node g ainv)).item (N : ℤ) =
        ∑ j in Finset.range (N + 1),
          g.coeff (g.ao + (j : ℤ)) *
            Stream_cauchy_invert.coeff g.item g.ao ainv (N - j) := by
    rw [StreamV.item,
      if_neg (by show ¬ ((N : ℤ) < g.ao + -g.ao); omega)]
    show Stream_cauchy_mul.get_coefficient g (Stream_cauchy_invert.node g ainv)
        (N : ℤ) = _
    rw [Stream_cauchy_mul.get_coefficient,
      show ((N : ℤ) - (Stream_cauchy_invert.node g ainv).ao) = g.ao + (N : ℤ)
        from by show (N : ℤ) - -g.ao = _; ring,
      sum_Icc_int_eq_range g.ao N]
    refine Finset.sum_congr rfl ?_
    intro j hj
    rw [Finset.mem_range] at hj
    by_cases hz : g.item (g.ao + (j : ℤ)) ≠ 0
    · rw [if_pos hz, hitem _ (by omega)]
      have hinvitem :
          (Stream_cauchy_invert.node g ainv).item ((N : ℤ) - (g.ao + (j : ℤ))) =
            Stream_cauchy_invert.coeff g.item g.ao ainv (N - j) := by
        rw [StreamV.item, if_neg (by show ¬ ((N : ℤ) - (g.ao + (j : ℤ)) < -g.ao); omega)]
        show Stream_cauchy_invert.coeff g.item g.ao ainv
          (((N : ℤ) - (g.ao + (j : ℤ)) + g.ao).toNat) = _
        congr 1
        omega
      rw [hinvitem]
    · rw [if_neg hz]
      push_neg at hz
      rw [hitem _ (by omega)] at hz
      rw [hz, zero_mul]
  rw [hmain]
  cases N with
  | zero =>
      rw [Finset.sum_range_one, if_pos (by norm_num)]
      show g.coeff (g.ao + ((0 : ℕ) : ℤ)) * ainv = 1
      rw [show g.ao + ((0 : ℕ) : ℤ) = g.ao by omega]
      exact hone
  | succ M =>
      rw [if_neg (by omega), Finset.sum_range_succ']
      simp only [Nat.succ_sub_succ, Nat.sub_zero, Nat.cast_zero, add_zero]
      rw [Stream_cauchy_invert.coeff_succ]
      have hT : ∑ k in Finset.range (M + 1),
          Stream_cauchy_invert.coeff g.item g.ao ainv k *
            g.item ((M : ℤ) + 1 + g.ao - (k : ℤ)) =
          ∑ k in Finset.range (M + 1),
            Stream_cauchy_invert.coeff g.item g.ao ainv k *
              g.coeff ((M : ℤ) + 1 + g.ao - (k : ℤ)) := by
        refine Finset.sum_congr rfl ?_
        intro k hk
        rw [Finset.mem_range] at hk
        rw [hitem _ (by omega)]
      rw [hT]
      have h2 : g.coeff g.ao *
          (-(∑ k in Finset.range (M + 1),
              Stream_cauchy_invert.coeff g.item g.ao ainv k *
                g.coeff ((M : ℤ) + 1 + g.ao - (k : ℤ))) * ainv) =
          -(∑ k in Finset.range (M + 1),
              Stream_cauchy_invert.coeff g.item g.ao ainv k *
                g.coeff ((M : ℤ) + 1 + g.ao - (k : ℤ))) := by
        rw [show g.coeff g.ao *
            (-(∑ k in Finset.range (M + 1),
                Stream_cauchy_invert.coeff g.item g.ao ainv k *
                  g.coeff ((M : ℤ) + 1 + g.ao - (k : ℤ))) * ainv) =
            -(g.coeff g.ao * ainv *
              ∑ k in Finset.range (M + 1),
                Stream_cauchy_invert.coeff g.item g.ao ainv k *
                  g.coeff ((M : ℤ) + 1 + g.ao - (k : ℤ))) from by ring,
          hone, one_mul]
      rw [h2]
      have h3 : ∑ i in Finset.range (M + 1),
          g.coeff (g.ao + ((i + 1 : ℕ) : ℤ)) *
            Stream_cauchy_invert.coeff g.item g.ao ainv (M - i) =
          ∑ k in Finset.range (M + 1),
            Stream_cauchy_invert.coeff g.item g.ao ainv k *
              g.coeff ((M : ℤ) + 1 + g.ao - (k : ℤ)) := by
        rw [← Finset.sum_range_reflect (fun k =>
          Stream_cauchy_invert.coeff g.item g.ao ainv k *
            g.coeff ((M : ℤ) + 1 + g.ao - (k : ℤ))) (M + 1)]
        refine Finset.sum_congr rfl ?_
        intro j hj
        rw [Finset.mem_range] at hj
        simp only [Nat.succ_sub_succ, Nat.sub_zero]
        rw [Nat.cast_sub (by omega : j ≤ M),
          show (M : ℤ) + 1 + g.ao - ((M : ℤ) - (j : ℤ)) = g.ao + ((j + 1 : ℕ) : ℤ)
            from by push_cast; ring]
        exact mul_comm _ _
      rw [h3]
      ring

/-- Witness for C2 at a concrete instance over `ℤ`: the stream with all
coefficients `1` from index `0` on, whose leading coefficient is its own
inverse, evaluated at `n = 2`. -/
theorem claim_C2_cauchy_invert_is_inverse_witness :
    (0 : ℤ) ≤ 2 ∧
    (Stream_cauchy_mul.node (⟨0, fun m => if m < 0 then (0:ℤ) else 1⟩ : StreamV ℤ)
        (Stream_cauchy_invert.node
          (⟨0, fun m => if m < 0 then (0:ℤ) else 1⟩ : StreamV ℤ) 1)).item 2 =
      if (2 : ℤ) = 0 then 1 else 0 :=
  ⟨by decide,
    claim_C2_cauchy_invert_is_inverse
      (⟨0, fun m => if m < 0 then (0:ℤ) else 1⟩ : StreamV ℤ) 1
      (fun m hm => if_pos hm) (by decide) 2 (by decide)⟩

end CauchyInverse

section FunctionStream

variable {R : Type} [CommRing R] [DecidableEq R]

/-- A Python function object: its object identity together with the
mapping it computes.  Python compares function objects by identity, so
two distinct function objects are unequal even when they are pointwise
equal. -/
structure PyFunction (R : Type) where
  ident : ℕ
  fn : ℤ → R

/-- Python `==` on function objects: identity comparison. -/
def PyFunction.pyEq (f g : PyFunction R) : Bool := f.ident == g.ident

/-- The attributes of a `Stream_function` relevant to its `__eq__` and
`__hash__`: the `get_coefficient` function object, the sparsity flag
and the approximate order. -/
structure StreamFunctionRep (R : Type) where
  get_coefficient : PyFunction R
  is_sparse : Bool
  approximate_order : ℤ

namespace Stream_function

/-- `Stream_function.__eq__`: `isinstance(other, type(self)) and
self.get_coefficient == other.get_coefficient` (the class check is
satisfied inside this representation type; function objects compare by
identity). -/
def eq (s t : StreamFunctionRep R) : Bool :=
  s.get_coefficient.pyEq t.get_coefficient

/-- `Stream_function.__hash__`: `hash(type(self))` — depends only on
the class, modelled by a fixed constant. -/
def hashValue (_ : StreamFunctionRep R) : ℕ := 0

end Stream_function

/-- Claim C9: equality of two `Stream_function` streams holds exactly
when they carry the identical coefficient-function object; two streams
built from distinct but pointwise-equal functions compare unequal; the
sparsity flag and the approximate order are ignored by equality; the
hash depends only on the class, so any two instances hash equally, and
equal streams hash equally. -/
theorem claim_C9_function_eq_hash (s t : StreamFunctionRep R) :
    (Stream_function.eq s t = true ↔
      s.get_coefficient.ident = t.get_coefficient.ident) ∧
    (s.get_coefficient.ident ≠ t.get_coefficient.ident →
      (∀ n, s.get_coefficient.fn n = t.get_coefficient.fn n) →
      Stream_function.eq s t = false) ∧
    (∀ (b b' : Bool) (o o' : ℤ),
      Stream_function.eq ⟨s.get_coefficient, b, o⟩ ⟨t.get_coefficient, b', o'⟩ =
        Stream_function.eq s t) ∧
    Stream_function.hashValue s = Stream_function.hashValue t ∧
    (Stream_function.eq s t = true →
      Stream_function.hashValue s = Stream_function.hashValue t) := by
  refine ⟨?_, ?_, fun b b' o o' => rfl, rfl, fun _ => rfl⟩
  · rw [Stream_function.eq, PyFunction.pyEq]
    exact beq_iff_eq
  · intro hne _
    rw [Stream_function.eq, PyFunction.pyEq]
    exact beq_eq_false_iff_ne.mpr hne

/-- Witness for C9 at a concrete instance over `ℤ`: two pointwise-equal
function objects with distinct identities compare unequal. -/
theorem claim_C9_function_eq_hash_witness :
    (0 : ℕ) ≠ 1 ∧
    Stream_function.eq
      (⟨⟨0, fun _ => (7:ℤ)⟩, true, 0⟩ : StreamFunctionRep ℤ)
      (⟨⟨1, fun _ => (7:ℤ)⟩, false, 5⟩ : StreamFunctionRep ℤ) = false :=
  ⟨by decide,
    (claim_C9_function_eq_hash
      (⟨⟨0, fun _ => (7:ℤ)⟩, true, 0⟩ : StreamFunctionRep ℤ)
      (⟨⟨1, fun _ => (7:ℤ)⟩, false, 5⟩ : StreamFunctionRep ℤ)).2.1
      (by decide) (fun n => rfl)⟩

end FunctionStream

section Uninitialized

/-- The shape of a stream node as seen by the `is_uninitialized`
traversal: a ground stream (whose `is_uninitialized` is `False`), a
reference to one of `m` uninitialized placeholders
(`Stream_uninitialized` instances), or a unary/binary operator node,
which is uninitialized when some child is.  Cycles in the object graph
can only pass through placeholders (operator children are fixed at
construction; only a placeholder's `_target` is bound late). -/
inductive StreamExpr (m : ℕ) : Type
  | ground : StreamExpr m
  | ref : Fin m → StreamExpr m
  | unary : StreamExpr m → StreamExpr m
  | binary : StreamExpr m → StreamExpr m → StreamExpr m
deriving DecidableEq

/-- `is_uninitialized`: `tgt v` is placeholder `v`'s optional `_target`
and `flags v` its `_initializing` reentrancy flag.
`Stream_uninitialized.is_uninitialized` returns `True` when no target
is bound; returns `False` when the flag is set (the semaphore-like
guard); otherwise it sets the flag, asks the target, and restores the
flag — modelled by passing the extended flag assignment to the
recursive call, which leaves the caller's flags unchanged.
`Stream_unary.is_uninitialized` and `Stream_binary.is_uninitialized`
delegate to the children; the base `Stream.is_uninitialized` returns
`False`.  Totality of this definition (by well-founded recursion on the
number of unset flags and the node size) is the termination property of
the claim. -/
def isUninit (m : ℕ) (tgt : Fin m → Option (StreamExpr m)) :
    (Fin m → Bool) → StreamExpr m → Bool
  | _, .ground => false
  | flags, .unary c => isUninit m tgt flags c
  | flags, .binary l r => isUninit m tgt flags l || isUninit m tgt flags r
  | flags, .ref v =>
    match tgt v with
    | none => true
    | some e =>
      if h : flags v = true then false
      else isUninit m tgt (fun w => if w = v then true else flags w) e
termination_by flags e =>
  ((Finset.univ.filter (fun w => flags w = false)).card, sizeOf e)
decreasing_by
  · apply Prod.Lex.right
    simp_arith
  · apply Prod.Lex.right
    simp_arith
  · apply Prod.Lex.right
    simp_arith
  · apply Prod.Lex.left
    have hsubset : Finset.univ.filter
        (fun w => (if _h : w = v then true else flags w) = false) ⊆
        Finset.univ.filter (fun w => flags w = false) := by
      intro x hx
      simp only [Finset.mem_filter, Finset.mem_univ, true_and] at hx ⊢
      by_cases hxv : x = v
      · simp [hxv] at hx
      · simp [hxv] at hx
        exact hx
    apply Finset.card_lt_card
    rw [Finset.ssubset_iff_of_subset hsubset]
    refine ⟨v, ?_, ?_⟩
    · simp only [Finset.mem_filter, Finset.mem_univ, true_and]
      simpa using h
    · simp

/-- Claim C10: `is_uninitialized` terminates (the embedding `isUninit`
is a total function, defined by well-founded recursion on the number of
placeholders whose reentrancy flag is still unset): it returns `True`
when no target is bound; when the flag of a placeholder is already set
(its check is in progress) the nested call returns `False` instead of
recursing; otherwise it recurses into the target with the flag set — and
since the flags are passed functionally, the caller's flag assignment is
unchanged afterwards (the flag is restored).  In particular two mutually
referencing placeholders yield `False` rather than infinite
recursion. -/
theorem claim_C10_is_uninitialized_terminates (m : ℕ)
    (tgt : Fin m → Option (StreamExpr m)) (flags : Fin m → Bool)
    (v w : Fin m) (e : StreamExpr m) :
    (tgt v = none → isUninit m tgt flags (.ref v) = true) ∧
    (tgt v = some e → flags v = true → isUninit m tgt flags (.ref v) = false) ∧
    (tgt v = some e → flags v = false →
      isUninit m tgt flags (.ref v) =
        isUninit m tgt (fun w' => if w' = v then true else flags w') e) ∧
    (v ≠ w → tgt v = some (.ref w) → tgt w = some (.ref v) →
      flags v = false → flags w = false →
      isUninit m tgt flags (.ref v) = false) := by
  refine ⟨?_, ?_, ?_, ?_⟩
  · intro hnone
    rw [isUninit, hnone]
  · intro hsome hflag
    rw [isUninit, hsome]
    simp [hflag]
  · intro hsome hflag
    rw [isUninit, hsome]
    simp [hflag]
  · intro hne hv hw hfv hfw
    rw [isUninit, hv]
    simp only [hfv, Bool.false_eq_true, dite_false]
    rw [isUninit, hw]
    have hwv : ¬ w = v := fun hc => hne hc.symm
    simp only [hwv, if_false, hfw, Bool.false_eq_true, dite_false]
    rw [isUninit, hv]
    simp [hne]

/-- Witness for C10: two mutually referencing placeholders (each bound
to a reference to the other) report not-uninitialized, terminating via
the reentrancy flag. -/
theorem claim_C10_is_uninitialized_terminates_witness :
    ((0 : Fin 2) ≠ (1 : Fin 2)) ∧
    isUninit 2
      (fun i => if i.val = 0 then some (.ref 1) else some (.ref 0))
      (fun _ => false) (.ref (0 : Fin 2)) = false :=
  ⟨by decide,
    (claim_C10_is_uninitialized_terminates 2
      (fun i => if i.val = 0 then some (.ref 1) else some (.ref 0))
      (fun _ => false) 0 1 .ground).2.2.2
      (by decide) (by decide) (by decide) rfl rfl⟩

end Uninitialized

section InfiniteOperator

variable {R C : Type} [CommRing R] [DecidableEq R]

/-- A factor pulled from the iterator of `Stream_infinite_operator`:
whether its coefficient stream is structurally the zero stream
(`isinstance(..., Stream_zero)`), its coefficient rule, and its current
approximate order. -/
structure IFactor (R : Type) where
  zero : Bool
  f : ℤ → R
  ao : ℤ

/-- Errors surfaced by `Stream_infinite_operator._advance`: the
`ValueError` for an order-consistency violation, and an uncaught
`StopIteration` when the first `_advance` finds an empty iterator. -/
inductive AdvErr
  | invalidOrder
  | stopIteration
deriving DecidableEq

/-- Errors surfaced by `Stream_infinite_operator.__getitem__` in the
embedding: an error propagated from `_advance`, indexing a missing
current value, or fuel exhaustion of the loop embedding (never reached
from the top-level entry point, which supplies sufficient fuel). -/
inductive GErr
  | adv (e : AdvErr)
  | noCur
  | outOfFuel
deriving DecidableEq

/-- The order value `self._cur_order`: `-infinity` before the first
factor, an integer while advancing, `+infinity` once the iterator is
exhausted. -/
def finOrd (o : ℤ) : WithBot (WithTop ℤ) := ((o : WithTop ℤ) : WithBot (WithTop ℤ))

/-- The exhausted order `+infinity`. -/
def topOrd : WithBot (WithTop ℤ) := ((⊤ : WithTop ℤ) : WithBot (WithTop ℤ))

/-- The inner loop of `_advance`:
`while coeff_stream._approximate_order < order: if
coeff_stream[coeff_stream._approximate_order]: raise ValueError(...)`.
Indexing a stream at its approximate order refines the bound past a
zero coefficient (modelled by the minimal refinement step of one); a
non-zero coefficient below `order` raises. -/
def resolveOrder (f : ℤ → R) (ao order : ℤ) : Except Unit ℤ :=
  if ao < order then
    if f ao ≠ 0 then .error () else resolveOrder f (ao + 1) order
  else .ok ao
termination_by (order - ao).toNat
decreasing_by omega

/-- State of a `Stream_infinite_operator`: the remaining factors of the
iterator, the accumulated partial result `self._cur` (`None` before the
first factor), and `self._cur_order`. -/
structure IState (R C : Type) where
  factors : List (IFactor R)
  cur : Option C
  curOrder : WithBot (WithTop ℤ)

/-- The `while order == self._cur_order` loop of `_advance` with
`order0 = self._cur_order`: pull the next factor (`StopIteration` sets
the order to `+infinity`), skip structural zeros, validate the factor's
order against the committed boundary, apply the accumulation operator
(`apply_operator`), and bump `order` past a vanishing coefficient at
the boundary. -/
def advLoop (app : C → IFactor R → C) (order0 : ℤ) :
    List (IFactor R) → C → ℤ →
      Except AdvErr (List (IFactor R) × C × WithTop ℤ)
  | [], cur, order =>
    if order ≠ order0 then .ok ([], cur, (order : WithTop ℤ))
    else .ok ([], cur, ⊤)
  | fac :: rest, cur, order =>
    if order ≠ order0 then .ok (fac :: rest, cur, (order : WithTop ℤ))
    else if fac.zero then advLoop app order0 rest cur order
    else
      match resolveOrder fac.f fac.ao order with
      | .error _ => .error .invalidOrder
      | .ok ao1 =>
        advLoop app order0 rest (app cur { fac with ao := ao1 })
          (if ao1 = order0 ∧ fac.f ao1 = 0 then ao1 + 1 else ao1)

/-- `Stream_infinite_operator._advance`: on the first call, pull the
first non-zero factor (recursing past structural zeros), install it via
`initial` and set `self._cur_order`; then run the order-advancing loop.
When `self._cur_order` is already `+infinity` the loop immediately
re-raises `StopIteration` and returns with the state unchanged. -/
def advance (initF : IFactor R → C) (app : C → IFactor R → C) :
    IState R C → Except AdvErr (IState R C)
  | st =>
    match st.cur with
    | none =>
      match h : st.factors with
      | [] => .error .stopIteration
      | fac :: rest =>
        if fac.zero then advance initF app ⟨rest, none, st.curOrder⟩
        else
          (advLoop app fac.ao rest (initF fac) fac.ao).map
            (fun p => ⟨p.1, some p.2.1, (p.2.2 : WithBot (WithTop ℤ))⟩)
    | some c =>
      match st.curOrder with
      | .some (.some o) =>
        (advLoop app o st.factors c o).map
          (fun p => ⟨p.1, some p.2.1, (p.2.2 : WithBot (WithTop ℤ))⟩)
      | .some .none => .ok st
      | .none => .ok st
termination_by st => st.factors.length
decreasing_by
  show rest.length < st.factors.length
  rw [h]
  simp

/-- `Stream_infinite_operator.__getitem__`:
`while n >= self._cur_order: self._advance(); return self._cur[n]`,
with explicit fuel for the loop. -/
def igetitemFuel (item : C → ℤ → R) (initF : IFactor R → C)
    (app : C → IFactor R → C) (n : ℤ) :
    ℕ → IState R C → Except GErr (R × IState R C)
  | 0, _ => .error .outOfFuel
  | fuel + 1, st =>
    if st.curOrder ≤ finOrd n then
      match advance initF app st with
      | .error e => .error (.adv e)
      | .ok st' => igetitemFuel item initF app n fuel st'
    else
      match st.cur with
      | some c => .ok (item c n, st)
      | none => .error .noCur

/-- `Stream_infinite_operator.__getitem__`, entry point: the fuel
`factors.length + 2` always suffices, because every `_advance` in the
loop either consumes a factor or sets the order to `+infinity`. -/
def igetitem (item : C → ℤ → R) (initF : IFactor R → C)
    (app : C → IFactor R → C) (st : IState R C) (n : ℤ) :
    Except GErr (R × IState R C) :=
  igetitemFuel item initF app n (st.factors.length + 2) st

/-- Well-formedness of reachable states: the current value is absent
exactly when the order is still `-infinity`, and an exhausted order
means the factor list is empty. -/
def IWF (st : IState R C) : Prop :=
  (st.cur = none ↔ st.curOrder = ⊥) ∧
  (st.curOrder = topOrd → st.factors = [])

theorem resolveOrder_error_iff (f : ℤ → R) (ao order : ℤ) :
    resolveOrder f ao order = .error () ↔
      ∃ m, ao ≤ m ∧ m < order ∧ f m ≠ 0 := by
  rw [resolveOrder]
  by_cases h1 : ao < order
  · rw [if_pos h1]
    by_cases h2 : f ao ≠ 0
    · rw [if_pos h2]
      simp only [true_iff]
      exact ⟨ao, le_refl _, h1, h2⟩
    · rw [if_neg h2]
      push_neg at h2
      rw [resolveOrder_error_iff f (ao + 1) order]
      constructor
      · rintro ⟨m, hm1, hm2, hm3⟩
        exact ⟨m, by omega, hm2, hm3⟩
      · rintro ⟨m, hm1, hm2, hm3⟩
        refine ⟨m, ?_, hm2, hm3⟩
        rcases eq_or_lt_of_le hm1 with rfl | hlt
        · exact absurd h2 hm3
        · omega
  · rw [if_neg h1]
    constructor
    · intro hc
      exact Except.noConfusion hc
    · rintro ⟨m, hm1, hm2, hm3⟩
      omega
termination_by (order - ao).toNat
decreasing_by omega

theorem advLoop_exit (app : C → IFactor R → C) (order0 : ℤ)
    (facs : List (IFactor R)) (cur : C) {order : ℤ} (h : order ≠ order0) :
    advLoop app order0 facs cur order =
      .ok (facs, cur, (order : WithTop ℤ)) := by
  cases facs with
  | nil => rw [advLoop, if_pos h]
  | cons fac rest => rw [advLoop, if_pos h]

theorem advLoop_nil (app : C → IFactor R → C) (order0 : ℤ) (cur : C)
    {order : ℤ} (h : order = order0) :
    advLoop app order0 [] cur order = .ok ([], cur, ⊤) := by
  rw [advLoop, if_neg (not_not_intro h)]

theorem advLoop_zero (app : C → IFactor R → C) (order0 : ℤ)
    {fac : IFactor R} (rest : List (IFactor R)) (cur : C) {order : ℤ}
    (h : order = order0) (hz : fac.zero = true) :
    advLoop app order0 (fac :: rest) cur order =
      advLoop app order0 rest cur order := by
  rw [advLoop, if_neg (not_not_intro h), if_pos hz]

theorem advLoop_raise (app : C → IFactor R → C) (order0 : ℤ)
    {fac : IFactor R} (rest : List (IFactor R)) (cur : C) {order : ℤ}
    (h : order = order0) (hz : fac.zero = false)
    (hr : resolveOrder fac.f fac.ao order = .error ()) :
    advLoop app order0 (fac :: rest) cur order = .error .invalidOrder := by
  rw [advLoop, if_neg (not_not_intro h),
    if_neg (by rw [hz]; exact Bool.false_ne_true), hr]

theorem advLoop_apply (app : C → IFactor R → C) (order0 : ℤ)
    {fac : IFactor R} (rest : List (IFactor R)) (cur : C) {order : ℤ}
    {ao1 : ℤ} (h : order = order0) (hz : fac.zero = false)
    (hr : resolveOrder fac.f fac.ao order = .ok ao1) :
    advLoop app order0 (fac :: rest) cur order =
      advLoop app order0 rest (app cur { fac with ao := ao1 })
        (if ao1 = order0 ∧ fac.f ao1 = 0 then ao1 + 1 else ao1) := by
  rw [advLoop, if_neg (not_not_intro h),
    if_neg (by rw [hz]; exact Bool.false_ne_true), hr]

theorem advLoop_length (app : C → IFactor R → C) (order0 : ℤ) :
    ∀ (facs : List (IFactor R)) (cur : C) (order : ℤ)
      (facs' : List (IFactor R)) (c' : C) (ord' : WithTop ℤ),
      advLoop app order0 facs cur order = .ok (facs', c', ord') →
      facs'.length ≤ facs.length := by
  intro facs
  induction facs with
  | nil =>
      intro cur order facs' c' ord' h
      by_cases ho : order ≠ order0
      · rw [advLoop_exit app order0 [] cur ho] at h
        cases h
        exact le_refl _
      · push_neg at ho
        rw [advLoop_nil app order0 cur ho] at h
        cases h
        exact le_refl _
  | cons fac rest ih =>
      intro cur order facs' c' ord' h
      by_cases ho : order ≠ order0
      · rw [advLoop_exit app order0 _ cur ho] at h
        cases h
        exact le_refl _
      · push_neg at ho
        by_cases hz : fac.zero = true
        · rw [advLoop_zero app order0 rest cur ho hz] at h
          exact le_trans (ih cur order facs' c' ord' h) (by simp)
        · rw [Bool.not_eq_true] at hz
          cases hr : resolveOrder fac.f fac.ao order with
          | error e =>
              cases e
              rw [advLoop_raise app order0 rest cur ho hz hr] at h
              exact Except.noConfusion h
          | ok ao1 =>
              rw [advLoop_apply app order0 rest cur ho hz hr] at h
              exact le_trans (ih _ _ facs' c' ord' h) (by simp)

theorem advLoop_progress (app : C → IFactor R → C) (order0 : ℤ)
    (facs : List (IFactor R)) (cur : C)
    (facs' : List (IFactor R)) (c' : C) (ord' : WithTop ℤ)
    (h : advLoop app order0 facs cur order0 = .ok (facs', c', ord')) :
    facs'.length < facs.length ∨ (facs = [] ∧ ord' = ⊤) := by
  cases facs with
  | nil =>
      rw [advLoop_nil app order0 cur rfl] at h
      cases h
      exact Or.inr ⟨rfl, rfl⟩
  | cons fac rest =>
      left
      by_cases hz : fac.zero = true
      · rw [advLoop_zero app order0 rest cur rfl hz] at h
        exact lt_of_le_of_lt (advLoop_length app order0 rest cur order0 _ _ _ h)
          (by simp)
      · rw [Bool.not_eq_true] at hz
        cases hr : resolveOrder fac.f fac.ao order0 with
        | error e =>
            cases e
            rw [advLoop_raise app order0 rest cur rfl hz hr] at h
            exact Except.noConfusion h
        | ok ao1 =>
            rw [advLoop_apply app order0 rest cur rfl hz hr] at h
            exact lt_of_le_of_lt (advLoop_length app order0 rest _ _ _ _ _ h)
              (by simp)

theorem advLoop_top (app : C → IFactor R → C) (order0 : ℤ) :
    ∀ (facs : List (IFactor R)) (cur : C) (order : ℤ)
      (facs' : List (IFactor R)) (c' : C),
      advLoop app order0 facs cur order = .ok (facs', c', ⊤) →
      facs' = [] := by
  intro facs
  induction facs with
  | nil =>
      intro cur order facs' c' h
      by_cases ho : order ≠ order0
      · rw [advLoop_exit app order0 [] cur ho] at h
        cases h
      · push_neg at ho
        rw [advLoop_nil app order0 cur ho] at h
        cases h
        rfl
  | cons fac rest ih =>
      intro cur order facs' c' h
      by_cases ho : order ≠ order0
      · rw [advLoop_exit app order0 _ cur ho] at h
        cases h
      · push_neg at ho
        by_cases hz : fac.zero = true
        · rw [advLoop_zero app order0 rest cur ho hz] at h
          exact ih cur order facs' c' h
        · rw [Bool.not_eq_true] at hz
          cases hr : resolveOrder fac.f fac.ao order with
          | error e =>
              cases e
              rw [advLoop_raise app order0 rest cur ho hz hr] at h
              exact Except.noConfusion h
          | ok ao1 =>
              rw [advLoop_apply app order0 rest cur ho hz hr] at h
              exact ih _ _ facs' c' h

theorem advance_none_nil (initF : IFactor R → C) (app : C → IFactor R → C)
    (co : WithBot (WithTop ℤ)) :
    advance initF app ⟨[], none, co⟩ = .error .stopIteration := by
  rw [advance.eq_def]

theorem advance_none_zero (initF : IFactor R → C) (app : C → IFactor R → C)
    {fac : IFactor R} (rest : List (IFactor R)) (co : WithBot (WithTop ℤ))
    (hz : fac.zero = true) :
    advance initF app ⟨fac :: rest, none, co⟩ =
      advance initF app ⟨rest, none, co⟩ := by
  rw [advance.eq_def]
  simp only [hz, if_true]

theorem advance_none_main (initF : IFactor R → C) (app : C → IFactor R → C)
    {fac : IFactor R} (rest : List (IFactor R)) (co : WithBot (WithTop ℤ))
    (hz : fac.zero = false) :
    advance initF app ⟨fac :: rest, none, co⟩ =
      (advLoop app fac.ao rest (initF fac) fac.ao).map
        (fun p => ⟨p.1, some p.2.1, (p.2.2 : WithBot (WithTop ℤ))⟩) := by
  rw [advance.eq_def]
  simp only [hz, Bool.false_eq_true, if_false]

theorem advance_some_fin (initF : IFactor R → C) (app : C → IFactor R → C)
    (facs : List (IFactor R)) (c : C) (o : ℤ) :
    advance initF app ⟨facs, some c, ((o : WithTop ℤ) : WithBot (WithTop ℤ))⟩ =
      (advLoop app o facs c o).map
        (fun p => ⟨p.1, some p.2.1, (p.2.2 : WithBot (WithTop ℤ))⟩) := by
  rw [advance.eq_def]

theorem advance_some_top (initF : IFactor R → C) (app : C → IFactor R → C)
    (facs : List (IFactor R)) (c : C) :
    advance initF app ⟨facs, some c, ((⊤ : WithTop ℤ) : WithBot (WithTop ℤ))⟩ =
      .ok ⟨facs, some c, ((⊤ : WithTop ℤ) : WithBot (WithTop ℤ))⟩ := by
  rw [advance.eq_def]

theorem advance_some_bot (initF : IFactor R → C) (app : C → IFactor R → C)
    (facs : List (IFactor R)) (c : C) :
    advance initF app ⟨facs, some c, ⊥⟩ = .ok ⟨facs, some c, ⊥⟩ := by
  rw [advance.eq_def]

theorem advance_progress (initF : IFactor R → C) (app : C → IFactor R → C) :
    ∀ (facs : List (IFactor R)) (cur : Option C) (co : WithBot (WithTop ℤ))
      (st' : IState R C),
      ((cur = none) ↔ (co = ⊥)) → co ≠ topOrd →
      advance initF app ⟨facs, cur, co⟩ = .ok st' →
      st'.factors.length < facs.length ∨ st'.curOrder = topOrd := by
  intro facs
  induction facs with
  | nil =>
      intro cur co st' hwf hco hadv
      cases cur with
      | none => rw [advance_none_nil] at hadv; exact Except.noConfusion hadv
      | some c =>
          induction co using WithBot.recBotCoe with
          | bot => exact absurd (hwf.mpr rfl) (by simp)
          | coe a =>
              induction a using WithTop.recTopCoe with
              | top => exact absurd rfl hco
              | coe o =>
                  rw [advance_some_fin] at hadv
                  cases hl : advLoop app o [] c o with
                  | error e => rw [hl] at hadv; exact Except.noConfusion hadv
                  | ok p =>
                      rw [hl] at hadv
                      simp only [Except.map] at hadv
                      cases hadv
                      rw [advLoop_nil app o c rfl] at hl
                      cases hl
                      exact Or.inr rfl
  | cons fac rest ih =>
      intro cur co st' hwf hco hadv
      cases cur with
      | none =>
          by_cases hz : fac.zero = true
          · rw [advance_none_zero initF app rest co hz] at hadv
            rcases ih none co st' hwf hco hadv with hlt | htop
            · exact Or.inl (lt_trans hlt (by simp))
            · exact Or.inr htop
          · rw [Bool.not_eq_true] at hz
            rw [advance_none_main initF app rest co hz] at hadv
            cases hl : advLoop app fac.ao rest (initF fac) fac.ao with
            | error e => rw [hl] at hadv; exact Except.noConfusion hadv
            | ok p =>
                rw [hl] at hadv
                simp only [Except.map] at hadv
                cases hadv
                exact Or.inl (Nat.lt_succ_of_le
                  (advLoop_length app fac.ao rest (initF fac) fac.ao
                    p.1 p.2.1 p.2.2 (by rw [hl])))
      | some c =>
          induction co using WithBot.recBotCoe with
          | bot => exact absurd (hwf.mpr rfl) (by simp)
          | coe a =>
              induction a using WithTop.recTopCoe with
              | top => exact absurd rfl hco
              | coe o =>
                  rw [advance_some_fin] at hadv
                  cases hl : advLoop app o (fac :: rest) c o with
                  | error e => rw [hl] at hadv; exact Except.noConfusion hadv
                  | ok p =>
                      rw [hl] at hadv
                      simp only [Except.map] at hadv
                      cases hadv
                      rcases advLoop_progress app o (fac :: rest) c
                          p.1 p.2.1 p.2.2 (by rw [hl]) with hlt | ⟨hnil, _⟩
                      · exact Or.inl hlt
                      · exact List.noConfusion hnil

theorem advance_wf (initF : IFactor R → C) (app : C → IFactor R → C) :
    ∀ (facs : List (IFactor R)) (cur : Option C) (co : WithBot (WithTop ℤ))
      (st' : IState R C),
      IWF (⟨facs, cur, co⟩ : IState R C) →
      advance initF app ⟨facs, cur, co⟩ = .ok st' →
      IWF st' := by
  have hmap : ∀ (p : List (IFactor R) × C × WithTop ℤ) (o0 : ℤ)
      (facs0 : List (IFactor R)) (c0 : C) (ord0 : ℤ),
      advLoop app o0 facs0 c0 ord0 = .ok p →
      IWF (⟨p.1, some p.2.1, (p.2.2 : WithBot (WithTop ℤ))⟩ : IState R C) := by
    intro p o0 facs0 c0 ord0 hl
    constructor
    · constructor
      · intro hc
        exact Option.noConfusion hc
      · intro hc
        exact absurd hc (WithBot.coe_ne_bot)
    · intro hc
      have : p.2.2 = (⊤ : WithTop ℤ) := by
        rw [topOrd] at hc
        exact WithBot.coe_injective hc
      exact advLoop_top app o0 facs0 c0 ord0 p.1 p.2.1
        (by rw [← this]; exact hl)
  intro facs
  induction facs with
  | nil =>
      intro cur co st' hwf hadv
      cases cur with
      | none => rw [advance_none_nil] at hadv; exact Except.noConfusion hadv
      | some c =>
          induction co using WithBot.recBotCoe with
          | bot => exact absurd (hwf.1.mpr rfl) (by simp)
          | coe a =>
              induction a using WithTop.recTopCoe with
              | top =>
                  rw [advance_some_top] at hadv
                  cases hadv
                  exact hwf
              | coe o =>
                  rw [advance_some_fin] at hadv
                  cases hl : advLoop app o [] c o with
                  | error e => rw [hl] at hadv; exact Except.noConfusion hadv
                  | ok p =>
                      rw [hl] at hadv
                      simp only [Except.map] at hadv
                      cases hadv
                      exact hmap p o [] c o hl
  | cons fac rest ih =>
      intro cur co st' hwf hadv
      cases cur with
      | none =>
          by_cases hz : fac.zero = true
          · rw [advance_none_zero initF app rest co hz] at hadv
            refine ih none co st' ⟨hwf.1, fun hc => absurd (hwf.2 hc) (by simp)⟩ hadv
          · rw [Bool.not_eq_true] at hz
            rw [advance_none_main initF app rest co hz] at hadv
            cases hl : advLoop app fac.ao rest (initF fac) fac.ao with
            | error e => rw [hl] at hadv; exact Except.noConfusion hadv
            | ok p =>
                rw [hl] at hadv
                simp only [Except.map] at hadv
                cases hadv
                exact hmap p fac.ao rest (initF fac) fac.ao hl
      | some c =>
          induction co using WithBot.recBotCoe with
          | bot => exact absurd (hwf.1.mpr rfl) (by simp)
          | coe a =>
              induction a using WithTop.recTopCoe with
              | top =>
                  rw [advance_some_top] at hadv
                  cases hadv
                  exact hwf
              | coe o =>
                  rw [advance_some_fin] at hadv
                  cases hl : advLoop app o (fac :: rest) c o with
                  | error e => rw [hl] at hadv; exact Except.noConfusion hadv
                  | ok p =>
                      rw [hl] at hadv
                      simp only [Except.map] at hadv
                      cases hadv
                      exact hmap p o (fac :: rest) c o hl

theorem not_topOrd_le_finOrd (n : ℤ) : ¬ (topOrd ≤ finOrd n) := by
  rw [topOrd, finOrd, WithBot.coe_le_coe, top_le_iff]
  exact WithTop.coe_ne_top

theorem igetitemFuel_top (item : C → ℤ → R) (initF : IFactor R → C)
    (app : C → IFactor R → C) (n : ℤ) (st : IState R C) (k : ℕ)
    (h : st.curOrder = topOrd) :
    igetitemFuel item initF app n (k + 1) st =
      (match st.cur with
       | some c => .ok (item c n, st)
       | none => .error .noCur) := by
  rw [igetitemFuel, if_neg (by rw [h]; exact not_topOrd_le_finOrd n)]

theorem igetitemFuel_mono (item : C → ℤ → R) (initF : IFactor R → C)
    (app : C → IFactor R → C) (n : ℤ) :
    ∀ (fuel : ℕ) (st : IState R C) (r : Except GErr (R × IState R C)),
      igetitemFuel item initF app n fuel st = r → r ≠ .error .outOfFuel →
      igetitemFuel item initF app n (fuel + 1) st = r := by
  intro fuel
  induction fuel with
  | zero =>
      intro st r h hr
      exact absurd h.symm (by simpa using hr)
  | succ k ih =>
      intro st r h hr
      rw [igetitemFuel] at h ⊢
      by_cases hc : st.curOrder ≤ finOrd n
      · rw [if_pos hc] at h ⊢
        cases ha : advance initF app st with
        | error e => rw [ha] at h; exact h
        | ok st' =>
            rw [ha] at h
            exact ih st' r h hr
      · rw [if_neg hc] at h ⊢
        exact h

theorem igetitemFuel_add (item : C → ℤ → R) (initF : IFactor R → C)
    (app : C → IFactor R → C) (n : ℤ) (fuel : ℕ) (st : IState R C)
    (r : Except GErr (R × IState R C))
    (h : igetitemFuel item initF app n fuel st = r)
    (hr : r ≠ .error .outOfFuel) :
    ∀ k : ℕ, igetitemFuel item initF app n (fuel + k) st = r := by
  intro k
  induction k with
  | zero => exact h
  | succ m ihm =>
      rw [show fuel + (m + 1) = (fuel + m) + 1 by omega]
      exact igetitemFuel_mono item initF app n (fuel + m) st r ihm hr

theorem igetitemFuel_enough (item : C → ℤ → R) (initF : IFactor R → C)
    (app : C → IFactor R → C) (n : ℤ) :
    ∀ (L : ℕ) (st : IState R C), st.factors.length ≤ L → IWF st →
      igetitemFuel item initF app n (L + 2) st ≠ .error .outOfFuel := by
  intro L
  induction L with
  | zero =>
      intro st hlen hwf
      rw [igetitemFuel]
      by_cases hc : st.curOrder ≤ finOrd n
      · rw [if_pos hc]
        cases ha : advance initF app st with
        | error e => simp
        | ok st' =>
            obtain ⟨facs, cur, co⟩ := st
            have hne : co ≠ topOrd := fun hco => by
              rw [hco] at hc
              exact not_topOrd_le_finOrd n hc
            rcases advance_progress initF app facs cur co st' hwf.1 hne ha
              with hlt | htop
            · have hlen' : facs.length ≤ 0 := hlen
              omega
            · show igetitemFuel item initF app n (0 + 1) st' ≠
                Except.error GErr.outOfFuel
              rw [igetitemFuel_top item initF app n st' 0 htop]
              cases st'.cur with
              | some c => simp
              | none => simp
      · rw [if_neg hc]
        cases st.cur with
        | some c => simp
        | none => simp
  | succ L ih =>
      intro st hlen hwf
      rw [igetitemFuel]
      by_cases hc : st.curOrder ≤ finOrd n
      · rw [if_pos hc]
        cases ha : advance initF app st with
        | error e => simp
        | ok st' =>
            obtain ⟨facs, cur, co⟩ := st
            have hne : co ≠ topOrd := fun hco => by
              rw [hco] at hc
              exact not_topOrd_le_finOrd n hc
            have hwf' := advance_wf initF app facs cur co st' hwf ha
            rcases advance_progress initF app facs cur co st' hwf.1 hne ha
              with hlt | htop
            · refine ih st' ?_ hwf'
              have hlen' : facs.length ≤ L + 1 := hlen
              omega
            · show igetitemFuel item initF app n (L + 1 + 1) st' ≠
                Except.error GErr.outOfFuel
              rw [igetitemFuel_top item initF app n st' (L + 1) htop]
              cases st'.cur with
              | some c => simp
              | none => simp
      · rw [if_neg hc]
        cases st.cur with
        | some c => simp
        | none => simp

theorem igetitem_step (item : C → ℤ → R) (initF : IFactor R → C)
    (app : C → IFactor R → C) (st st' : IState R C) (n : ℤ)
    (hwf : IWF st) (hcond : st.curOrder ≤ finOrd n)
    (hadv : advance initF app st = .ok st') :
    igetitem item initF app st n = igetitem item initF app st' n := by
  obtain ⟨facs, cur, co⟩ := st
  have hne : co ≠ topOrd := fun hco => by
    rw [hco] at hcond
    exact not_topOrd_le_finOrd n hcond
  have hwf' := advance_wf initF app facs cur co st' hwf hadv
  rw [igetitem, igetitem]
  show igetitemFuel item initF app n (facs.length + 1 + 1) ⟨facs, cur, co⟩ =
    igetitemFuel item initF app n (st'.factors.length + 2) st'
  rw [igetitemFuel, if_pos hcond, hadv]
  rcases advance_progress initF app facs cur co st' hwf.1 hne hadv
    with hlt | htop
  · have hbase : igetitemFuel item initF app n (st'.factors.length + 2) st' ≠
        .error .outOfFuel :=
      igetitemFuel_enough item initF app n st'.factors.length st'
        (le_refl _) hwf'
    have hadd := igetitemFuel_add item initF app n (st'.factors.length + 2) st'
      (igetitemFuel item initF app n (st'.factors.length + 2) st') rfl hbase
      (facs.length + 1 - (st'.factors.length + 2))
    rw [show st'.factors.length + 2 +
        (facs.length + 1 - (st'.factors.length + 2)) = facs.length + 1
      from by omega] at hadd
    exact hadd
  · show igetitemFuel item initF app n (facs.length + 1) st' =
      igetitemFuel item initF app n (st'.factors.length + 1 + 1) st'
    rw [igetitemFuel_top item initF app n st' facs.length htop,
      igetitemFuel_top item initF app n st' (st'.factors.length + 1) htop]

/-- Claim C8: for the infinite sum/product operator, (a) pulling a later
factor whose computed valuation is strictly below the already-committed
order boundary raises the validation error; (b) indexing at `n`
delegates to the accumulated partial result when `n` is below
`self._cur_order`, and otherwise advances and retries; and (c)
structurally-zero factors are skipped, both by the initial pull and by
the advancing loop. -/
theorem claim_C8_infinite_operator
    (item : C → ℤ → R) (initF : IFactor R → C) (app : C → IFactor R → C)
    (st st' : IState R C) (c : C) (o n : ℤ) (fac zf : IFactor R)
    (rest : List (IFactor R)) :
    (st.cur = some c → st.curOrder = finOrd o → st.factors = fac :: rest →
      fac.zero = false → (∃ m, fac.ao ≤ m ∧ m < o ∧ fac.f m ≠ 0) →
      advance initF app st = .error .invalidOrder) ∧
    (IWF st → st.cur = some c → ¬ (st.curOrder ≤ finOrd n) →
      igetitem item initF app st n = .ok (item c n, st)) ∧
    (IWF st → st.curOrder ≤ finOrd n → advance initF app st = .ok st' →
      igetitem item initF app st n = igetitem item initF app st' n) ∧
    (zf.zero = true →
      advance initF app ⟨zf :: rest, none, st.curOrder⟩ =
        advance initF app ⟨rest, none, st.curOrder⟩) ∧
    (zf.zero = true →
      advLoop app o (zf :: rest) c o = advLoop app o rest c o) := by
  refine ⟨?_, ?_, ?_, ?_, ?_⟩
  · obtain ⟨facs0, cur0, co0⟩ := st
    intro h1 h2 h3 h4 h5
    simp only at h1 h2 h3
    subst h1
    subst h2
    subst h3
    have heq : advance initF app ⟨fac :: rest, some c, finOrd o⟩ =
        (advLoop app o (fac :: rest) c o).map
          (fun p => ⟨p.1, some p.2.1, (p.2.2 : WithBot (WithTop ℤ))⟩) :=
      advance_some_fin initF app (fac :: rest) c o
    rw [heq]
    have hres : resolveOrder fac.f fac.ao o = .error () :=
      (resolveOrder_error_iff fac.f fac.ao o).mpr h5
    rw [advLoop_raise app o rest c rfl h4 hres]
    rfl
  · intro hwf hc hcond
    obtain ⟨facs0, cur0, co0⟩ := st
    rw [igetitem]
    show igetitemFuel item initF app n (facs0.length + 1 + 1)
      ⟨facs0, cur0, co0⟩ = _
    rw [igetitemFuel, if_neg hcond]
    simp only at hc
    subst hc
    rfl
  · exact fun hwf hcond hadv =>
      igetitem_step item initF app st st' n hwf hcond hadv
  · intro hz
    exact advance_none_zero initF app rest st.curOrder hz
  · intro hz
    exact advLoop_zero app o rest c rfl hz

/-- Witness for C8 at a concrete instance over `ℤ` (current values of
type `ℤ`): a non-zero factor whose valuation `0` is below the committed
order `1` makes `_advance` raise the validation error. -/
theorem claim_C8_infinite_operator_witness :
    ((⟨[⟨false, fun _ => (1:ℤ), 0⟩], some (5:ℤ), finOrd 1⟩ : IState ℤ ℤ).cur =
        some (5:ℤ)) ∧
    (∃ m : ℤ, (0:ℤ) ≤ m ∧ m < 1 ∧ (fun _ => (1:ℤ)) m ≠ 0) ∧
    advance (fun _ : IFactor ℤ => (0:ℤ)) (fun c _ => c)
      (⟨[⟨false, fun _ => (1:ℤ), 0⟩], some (5:ℤ), finOrd 1⟩ : IState ℤ ℤ) =
      .error .invalidOrder :=
  ⟨rfl, ⟨0, le_refl 0, by decide, by decide⟩,
    (claim_C8_infinite_operator (fun c _ => c) (fun _ => (0:ℤ)) (fun c _ => c)
      (⟨[⟨false, fun _ => (1:ℤ), 0⟩], some (5:ℤ), finOrd 1⟩ : IState ℤ ℤ)
      (⟨[], none, ⊥⟩ : IState ℤ ℤ) (5:ℤ) 1 0
      ⟨false, fun _ => (1:ℤ), 0⟩ ⟨true, fun _ => (0:ℤ), 0⟩ []).1
      rfl rfl rfl rfl ⟨0, le_refl 0, by decide, by decide⟩⟩

end InfiniteOperator

section ExactConstructor

variable {R : Type} [CommRing R] [DecidableEq R]

namespace Stream_exact

/-- The tail-stripping loops of `Stream_exact.__init__`
(`for w in reversed(initial_coefficients): if not (w == x): break;
initial_coefficients.pop()`): drop elements from the end of the list
while they satisfy `p`. -/
def dropTail (p : R → Bool) (l : List R) : List R :=
  (l.reverse.dropWhile p).reverse

theorem dropTail_nil (p : R → Bool) : dropTail p ([] : List R) = [] := rfl

theorem dropTail_cons (p : R → Bool) (x : R) (xs : List R) :
    dropTail p (x :: xs) =
      if dropTail p xs = [] then (if p x then [] else [x])
      else x :: dropTail p xs := by
  rw [dropTail, List.reverse_cons, List.dropWhile_append]
  by_cases he : (xs.reverse.dropWhile p) = []
  · rw [if_pos (by simp [he])]
    rw [show dropTail p xs = [] from by rw [dropTail, he, List.reverse_nil]]
    rw [if_pos rfl]
    by_cases hp : p x
    · simp [List.dropWhile, hp]
    · simp [List.dropWhile, hp]
  · rw [if_neg (by simpa using he)]
    rw [if_neg (by rw [dropTail]; simpa using he)]
    rw [List.reverse_append]
    simp [dropTail]

theorem dropTail_length (p : R → Bool) (l : List R) :
    (dropTail p l).length ≤ l.length := by
  induction l with
  | nil => simp [dropTail_nil]
  | cons x xs ih =>
      rw [dropTail_cons]
      by_cases h : dropTail p xs = []
      · rw [if_pos h]
        by_cases hp : p x
        · simp [hp]
        · simp [hp]
      · rw [if_neg h]
        simpa using ih

theorem dropTail_head? (p : R → Bool) (l : List R) (a : R)
    (h : (dropTail p l).head? = some a) : l.head? = some a := by
  cases l with
  | nil => rw [dropTail_nil] at h; exact Option.noConfusion h
  | cons x xs =>
      rw [dropTail_cons] at h
      by_cases he : dropTail p xs = []
      · rw [if_pos he] at h
        by_cases hp : p x
        · rw [if_pos hp] at h
          exact Option.noConfusion h
        · rw [if_neg hp] at h
          simpa using h
      · rw [if_neg he] at h
        simpa using h

theorem dropTail_getLast (p : R → Bool) (l : List R)
    (h : dropTail p l ≠ []) : p ((dropTail p l).getLast h) = false := by
  induction l with
  | nil => exact absurd (dropTail_nil p) h
  | cons x xs ih =>
      by_cases he : dropTail p xs = []
      · have hx : ¬ p x = true := by
          intro hp
          exact h (by rw [dropTail_cons, if_pos he, if_pos hp])
        have hthis : dropTail p (x :: xs) = [x] := by
          rw [dropTail_cons, if_pos he, if_neg hx]
        have hval : (dropTail p (x :: xs)).getLast h = x := by
          rw [List.getLast_congr h (by simp) hthis]
          simp
        rw [hval]
        simpa using hx
      · have hstep : dropTail p (x :: xs) = x :: dropTail p xs := by
          rw [dropTail_cons, if_neg he]
        have hval : (dropTail p (x :: xs)).getLast h =
            (dropTail p xs).getLast he := by
          rw [List.getLast_congr h (by simp) hstep]
          exact List.getLast_cons he
        rw [hval]
        exact ih he

theorem dropTail_noop (p : R → Bool) (l : List R) (h : l ≠ [])
    (hl : p (l.getLast h) = false) : dropTail p l = l := by
  induction l with
  | nil => exact absurd rfl h
  | cons x xs ih =>
      cases hxs : xs with
      | nil =>
          subst hxs
          simp at hl
          rw [dropTail_cons, dropTail_nil, if_pos rfl, if_neg (by simp [hl])]
      | cons y ys =>
          subst hxs
          have hne : (y :: ys : List R) ≠ [] := by simp
          rw [List.getLast_cons hne] at hl
          have hind : dropTail p (y :: ys) = y :: ys := ih hne hl
          rw [dropTail_cons, if_neg (by rw [hind]; simp), hind]

theorem dropTail_eq_of_length (p : R → Bool) (l : List R)
    (h : (dropTail p l).length = l.length) : dropTail p l = l := by
  induction l with
  | nil => rfl
  | cons x xs ih =>
      rw [dropTail_cons] at h ⊢
      by_cases he : dropTail p xs = []
      · rw [if_pos he] at h ⊢
        by_cases hp : p x
        · rw [if_pos hp] at h
          simp at h
        · rw [if_neg hp] at h ⊢
          have hxs : xs = [] := by
            have hlen : (1 : ℕ) = xs.length + 1 := by simpa using h
            exact List.length_eq_zero.mp (by omega)
          rw [hxs]
      · rw [if_neg he] at h ⊢
        simp only [List.length_cons] at h
        rw [ih (by omega)]

theorem dropTail_concat (p : R → Bool) (l₁ l₂ : List R)
    (h₂ : ∀ x ∈ l₂, p x = true) (h₁ : l₁ ≠ [])
    (hl : p (l₁.getLast h₁) = false) :
    dropTail p (l₁ ++ l₂) = l₁ := by
  rw [dropTail, List.reverse_append, List.dropWhile_append]
  have hall : l₂.reverse.dropWhile p = [] := by
    rw [List.dropWhile_eq_nil_iff]
    intro x hx
    exact h₂ x (by simpa using hx)
  rw [if_pos (by rw [hall]; rfl)]
  have hrl : l₁.reverse = l₁.getLast h₁ :: l₁.dropLast.reverse := by
    conv_lhs => rw [← List.dropLast_append_getLast h₁]
    rw [List.reverse_append]
    rfl
  have : l₁.reverse.dropWhile p = l₁.reverse := by
    rw [hrl, List.dropWhile_cons, if_neg (by rw [hl]; simp)]
  rw [this, List.reverse_reverse]

/-- The degree normalization of `Stream_exact.__init__`:
`if (degree is None or (not self._constant and degree > order +
len(initial_coefficients))): self._degree = order + len(...)` and the
given degree otherwise. -/
def mkDegree (c : R) (ord : ℤ) (len : ℕ) (degree : Option ℤ) : ℤ :=
  match degree with
  | none => ord + len
  | some d => if c = 0 ∧ ord + (len : ℤ) < d then ord + len else d

/-- The tail-stripping phase of `Stream_exact.__init__`, starting from
the list with its leading zeros removed (`rest`, whose first entry is
the first non-zero coefficient) anchored at the advanced order `ord2`:
strip the constant-matching suffix (decrementing the degree) when the
implied degree equals the stored one, then strip remaining trailing
zeros, and assert the result is not the zero stream. -/
def mkTail (c : R) (ord2 deg : ℤ) (rest : List R) : Option (ExactRep R) :=
  let pr :=
    if ord2 + (rest.length : ℤ) = deg then
      (dropTail (fun w => w == c) rest,
       deg - ((rest.length - (dropTail (fun w => w == c) rest).length : ℕ) : ℤ))
    else (rest, deg)
  let ic3 := dropTail (fun w => w == 0) pr.1
  if ic3 = [] ∧ c = 0 then none
  else some ⟨ic3, ord2, pr.2, c⟩

/-- The leading-zero stripping phase of `Stream_exact.__init__`: find
the first non-zero coefficient, advancing the order; if there is none,
the initial segment is empty and the order is the degree (asserting a
non-zero constant). -/
def mkStripped (c : R) (ord deg : ℤ) (init : List R) : Option (ExactRep R) :=
  match init.dropWhile (fun v => v == 0) with
  | [] => if c = 0 then none else some ⟨[], deg, deg, c⟩
  | a :: l =>
    mkTail c (ord + ((init.length - (a :: l).length : ℕ) : ℤ)) deg (a :: l)

/-- `Stream_exact.__init__`: a missing constant defaults to zero, a
missing order to `0`; the degree is normalized by `mkDegree`; the
assertion `order + len(initial_coefficients) <= degree` and the
stripping phases follow.  A failed assertion is modelled as `none`. -/
def mk (initial_coefficients : List R) (constant : Option R)
    (degree : Option ℤ) (order : Option ℤ) : Option (ExactRep R) :=
  let c := constant.getD 0
  let ord := order.getD 0
  let deg := mkDegree c ord initial_coefficients.length degree
  if ord + (initial_coefficients.length : ℤ) ≤ deg then
    mkStripped c ord deg initial_coefficients
  else none

/-- The canonical form that `Stream_exact.__init__` establishes: the
initial segment fits below the degree; an empty initial segment forces
a non-zero constant and order equal to degree; the initial segment has
non-zero first and last entries; when the initial segment reaches up to
the degree its last entry differs from the constant; and a zero
constant forces the initial segment to reach up to the degree. -/
def Canonical (s : ExactRep R) : Prop :=
  s.approximate_order + (s.initial_coefficients.length : ℤ) ≤ s.degree ∧
  (s.initial_coefficients = [] →
    s.constant ≠ 0 ∧ s.approximate_order = s.degree) ∧
  (∀ a t, s.initial_coefficients = a :: t → a ≠ 0) ∧
  (∀ h : s.initial_coefficients ≠ [],
    s.initial_coefficients.getLast h ≠ 0) ∧
  (s.approximate_order + (s.initial_coefficients.length : ℤ) = s.degree →
    ∀ h : s.initial_coefficients ≠ [],
      s.initial_coefficients.getLast h ≠ s.constant) ∧
  (s.constant = 0 →
    s.approximate_order + (s.initial_coefficients.length : ℤ) = s.degree)

theorem dropWhile_head_false (p : R → Bool) (l : List R) (a : R) (t : List R)
    (h : l.dropWhile p = a :: t) : p a = false := by
  induction l with
  | nil => exact List.noConfusion h
  | cons x xs ih =>
      rw [List.dropWhile_cons] at h
      by_cases hp : p x
      · rw [if_pos hp] at h
        exact ih h
      · rw [if_neg hp] at h
        injection h with h1 h2
        subst h1
        exact Bool.eq_false_iff.mpr hp

theorem dropTail_cons_ne_nil (p : R → Bool) (b : R) (t : List R)
    (hb : p b = false) : dropTail p (b :: t) ≠ [] := by
  rw [dropTail_cons]
  by_cases he : dropTail p t = []
  · rw [if_pos he, if_neg (by rw [hb]; simp)]
    simp
  · rw [if_neg he]
    simp

theorem dropTail_all (p : R → Bool) (l : List R)
    (h : ∀ x ∈ l, p x = true) : dropTail p l = [] := by
  rw [dropTail]
  have hnil : l.reverse.dropWhile p = [] := by
    rw [List.dropWhile_eq_nil_iff]
    intro x hx
    exact h x (by simpa using hx)
  rw [hnil, List.reverse_nil]

theorem mkDegree_czero (c : R) (ord : ℤ) (len : ℕ) (degree : Option ℤ)
    (hc : c = 0) (hle : ord + (len : ℤ) ≤ mkDegree c ord len degree) :
    mkDegree c ord len degree = ord + len := by
  cases degree with
  | none => rfl
  | some d =>
      simp only [mkDegree] at hle ⊢
      by_cases hlt : ord + (len : ℤ) < d
      · rw [if_pos ⟨hc, hlt⟩]
      · rw [if_neg (fun hcon => hlt hcon.2)] at hle ⊢
        omega

theorem mkStripped_nil (c : R) (ord deg : ℤ) (init : List R)
    (h : init.dropWhile (fun v => v == 0) = []) :
    mkStripped c ord deg init =
      if c = 0 then none else some ⟨[], deg, deg, c⟩ := by
  rw [mkStripped, h]

theorem mkStripped_cons (c : R) (ord deg : ℤ) (init : List R) (a : R)
    (l : List R) (h : init.dropWhile (fun v => v == 0) = a :: l) :
    mkStripped c ord deg init =
      mkTail c (ord + ((init.length - (a :: l).length : ℕ) : ℤ)) deg
        (a :: l) := by
  rw [mkStripped, h]

theorem mkTail_canonical (c : R) (ord2 deg : ℤ) (a : R) (l : List R)
    (s : ExactRep R) (ha : a ≠ 0)
    (hle : ord2 + ((a :: l).length : ℤ) ≤ deg)
    (hcz : c = 0 → ord2 + ((a :: l).length : ℤ) = deg)
    (h : mkTail c ord2 deg (a :: l) = some s) : Canonical s := by
  have hpa : (a == (0 : R)) = false := beq_eq_false_iff_ne.mpr ha
  simp only [mkTail] at h
  by_cases hif : ord2 + ((a :: l).length : ℤ) = deg
  · rw [if_pos hif] at h
    dsimp only at h
    set A := dropTail (fun w => w == c) (a :: l) with hA
    set B := dropTail (fun w => w == (0 : R)) A with hB
    have hAlen : A.length ≤ (a :: l).length := dropTail_length _ _
    have hBlen : B.length ≤ A.length := dropTail_length _ _
    have hheadA : ∀ b t, A = b :: t → b = a := by
      intro b t hbt
      have h1 : A.head? = some b := by rw [hbt]; rfl
      have h2 := dropTail_head? (fun w => w == c) (a :: l) b (hA ▸ h1)
      have h3 : a = b := by simpa using h2
      exact h3.symm
    have hheadB : ∀ b t, B = b :: t → b = a := by
      intro b t hbt
      have h1 : B.head? = some b := by rw [hbt]; rfl
      have h2 := dropTail_head? (fun w => w == (0 : R)) A b (hB ▸ h1)
      cases hAe : A with
      | nil => rw [hAe] at h2; exact Option.noConfusion h2
      | cons x t' =>
          have hx := hheadA x t' hAe
          rw [hAe] at h2
          have h3 : x = b := by simpa using h2
          rw [← h3, hx]
    by_cases hg : B = [] ∧ c = 0
    · rw [if_pos hg] at h
      exact Option.noConfusion h
    · rw [if_neg hg] at h
      have hs := Option.some.inj h
      subst hs
      unfold Canonical
      dsimp only
      refine ⟨by omega, ?_, ?_, ?_, ?_, ?_⟩
      · intro hBnil
        refine ⟨fun hc0 => hg ⟨hBnil, hc0⟩, ?_⟩
        have hAnil : A = [] := by
          cases hAe : A with
          | nil => rfl
          | cons x t' =>
              have hx : x = a := hheadA x t' hAe
              have hne : B ≠ [] := by
                rw [hB, hAe]
                exact dropTail_cons_ne_nil _ x t' (by rw [hx]; exact hpa)
              exact absurd hBnil hne
        have hA0 : A.length = 0 := by rw [hAnil]; rfl
        omega
      · intro b t hbt hb0
        rw [hheadB b t hbt] at hb0
        exact ha hb0
      · intro hne hb0
        have hgl : ((B.getLast hne) == (0 : R)) = false :=
          dropTail_getLast (fun w => w == (0 : R)) A hne
        rw [hb0] at hgl
        simp at hgl
      · intro hlen hne
        have hBAlen : B.length = A.length := by omega
        have hBeqA : dropTail (fun w => w == (0 : R)) A = A :=
          dropTail_eq_of_length _ A hBAlen
        have hAne : A ≠ [] := by
          intro hAnil
          apply hne
          rw [hB, hAnil, dropTail_nil]
        have hlast : ((A.getLast hAne) == c) = false :=
          dropTail_getLast (fun w => w == c) (a :: l) hAne
        have hcongr : B.getLast hne = A.getLast hAne :=
          List.getLast_congr hne hAne (hB.trans hBeqA)
        intro hc'
        rw [hcongr] at hc'
        rw [hc'] at hlast
        simp at hlast
      · intro hc0
        subst hc0
        have hBne : B ≠ [] := fun hB0 => hg ⟨hB0, rfl⟩
        have hAne : A ≠ [] := by
          intro hAnil
          apply hBne
          rw [hB, hAnil, dropTail_nil]
        have hlastA : ((A.getLast hAne) == (0 : R)) = false :=
          dropTail_getLast (fun w => w == (0 : R)) (a :: l) hAne
        have hnoop : dropTail (fun w => w == (0 : R)) A = A :=
          dropTail_noop _ A hAne hlastA
        have hBAlen : B.length = A.length := by
          rw [hB, hnoop]
        omega
  · rw [if_neg hif] at h
    dsimp only at h
    have hlt : ord2 + ((a :: l).length : ℤ) < deg := lt_of_le_of_ne hle hif
    have hCne : dropTail (fun w => w == (0 : R)) (a :: l) ≠ [] :=
      dropTail_cons_ne_nil _ a l hpa
    rw [if_neg (fun hx => hCne hx.1)] at h
    have hs := Option.some.inj h
    subst hs
    have hClen : (dropTail (fun w => w == (0 : R)) (a :: l)).length ≤
        (a :: l).length := dropTail_length _ _
    unfold Canonical
    dsimp only
    refine ⟨by omega, ?_, ?_, ?_, ?_, ?_⟩
    · intro hnil
      exact absurd hnil hCne
    · intro b t hbt hb0
      have h1 : (dropTail (fun w => w == (0 : R)) (a :: l)).head? = some b := by
        rw [hbt]; rfl
      have h2 := dropTail_head? _ (a :: l) b h1
      have h3 : a = b := by simpa using h2
      rw [← h3] at hb0
      exact ha hb0
    · intro hne hb0
      have hgl := dropTail_getLast (fun w => w == (0 : R)) (a :: l) hne
      rw [hb0] at hgl
      simp at hgl
    · intro hlen
      exact absurd hlen (by omega)
    · intro hc0
      exact absurd (hcz hc0) hif

theorem dropWhile_length_le (p : R → Bool) (l : List R) :
    (l.dropWhile p).length ≤ l.length := by
  induction l with
  | nil => simp
  | cons x xs ih =>
      rw [List.dropWhile_cons]
      by_cases hp : p x
      · rw [if_pos hp]
        exact Nat.le_succ_of_le ih
      · rw [if_neg hp]

theorem mk_canonical (init : List R) (copt : Option R) (dopt oopt : Option ℤ)
    (s : ExactRep R) (h : mk init copt dopt oopt = some s) : Canonical s := by
  simp only [mk] at h
  by_cases hle : oopt.getD 0 + (init.length : ℤ) ≤
      mkDegree (copt.getD 0) (oopt.getD 0) init.length dopt
  · rw [if_pos hle] at h
    cases hdw : init.dropWhile (fun v => v == 0) with
    | nil =>
        rw [mkStripped_nil _ _ _ _ hdw] at h
        by_cases hc : copt.getD 0 = 0
        · rw [if_pos hc] at h
          exact Option.noConfusion h
        · rw [if_neg hc] at h
          have hs := Option.some.inj h
          subst hs
          unfold Canonical
          dsimp only
          refine ⟨by simp, fun _ => ⟨hc, rfl⟩, ?_, ?_, ?_, fun _ => by simp⟩
          · intro b t hbt
            exact absurd hbt (List.noConfusion)
          · intro hne
            exact absurd rfl hne
          · intro _ hne
            exact absurd rfl hne
    | cons a l =>
        rw [mkStripped_cons _ _ _ _ _ _ hdw] at h
        have ha : a ≠ 0 := by
          have hfa := dropWhile_head_false (fun v => v == 0) init a l hdw
          simpa using hfa
        have hrl : (a :: l).length ≤ init.length := by
          have hlen := dropWhile_length_le (fun v => v == 0) init
          rw [hdw] at hlen
          exact hlen
        have hle2 : oopt.getD 0 + ((init.length - (a :: l).length : ℕ) : ℤ) +
            ((a :: l).length : ℤ) ≤
            mkDegree (copt.getD 0) (oopt.getD 0) init.length dopt := by
          omega
        refine mkTail_canonical _ _ _ _ _ _ ha (by omega) ?_ h
        intro hc0
        have hdz := mkDegree_czero (copt.getD 0) (oopt.getD 0) init.length
          dopt hc0 hle
        omega
  · rw [if_neg hle] at h
    exact Option.noConfusion h

theorem ext_getD (l₁ l₂ : List R) (hlen : l₁.length = l₂.length)
    (h : ∀ j : ℕ, j < l₁.length → l₁.getD j 0 = l₂.getD j 0) : l₁ = l₂ := by
  apply List.ext_get hlen
  intro n h₁ h₂
  have hj := h n h₁
  rw [List.getD_eq_getElem l₁ 0 h₁, List.getD_eq_getElem l₂ 0 h₂] at hj
  simpa using hj

theorem getD_pair_zero (j : ℕ) : ([(0 : R), 0]).getD j 0 = 0 := by
  rcases j with _ | j
  · rfl
  rcases j with _ | j
  · rfl
  · rfl

theorem getD_replicate (x : R) (m j : ℕ) (h : j < m) :
    (List.replicate m x).getD j 0 = x := by
  rw [List.getD_eq_getElem _ _ (by simpa using h)]
  exact List.getElem_replicate x _

theorem getD_append_four (l1 l2 l3 l4 : List R) (j : ℕ) :
    (l1 ++ (l2 ++ (l3 ++ l4))).getD j 0 =
      if j < l1.length then l1.getD j 0
      else if j - l1.length < l2.length then l2.getD (j - l1.length) 0
      else if j - l1.length - l2.length < l3.length then
        l3.getD (j - l1.length - l2.length) 0
      else l4.getD (j - l1.length - l2.length - l3.length) 0 := by
  by_cases hA : j < l1.length
  · rw [if_pos hA, List.getD_append _ _ _ _ hA]
  · rw [if_neg hA, List.getD_append_right _ _ _ _ (by omega)]
    by_cases hB : j - l1.length < l2.length
    · rw [if_pos hB, List.getD_append _ _ _ _ hB]
    · rw [if_neg hB, List.getD_append_right _ _ _ _ (by omega)]
      by_cases hC : j - l1.length - l2.length < l3.length
      · rw [if_pos hC, List.getD_append _ _ _ _ hC]
      · rw [if_neg hC, List.getD_append_right _ _ _ _ (by omega)]

/-- The reconstruction coefficient list
`[s[i] for i in range(order - 2, degree + 5)]` of the round-trip test. -/
def window (s : ExactRep R) : List R :=
  (List.range (s.degree + 5 - (s.approximate_order - 2)).toNat).map
    (fun j : ℕ => getitem s (s.approximate_order - 2 + (j : ℤ)))

theorem window_eq (s : ExactRep R) (hcan : Canonical s) :
    window s =
      [(0 : R), 0] ++ (s.initial_coefficients ++
        (List.replicate (s.degree - s.approximate_order -
          (s.initial_coefficients.length : ℤ)).toNat 0 ++
        List.replicate 5 s.constant)) := by
  obtain ⟨h1, _h2, _h3, _h4, _h5, _h6⟩ := hcan
  apply ext_getD
  · simp only [window, List.length_map, List.length_range, List.length_append,
      List.length_cons, List.length_nil, List.length_replicate]
    omega
  · intro j hj
    simp only [window, List.length_map, List.length_range] at hj
    simp only [window]
    rw [getD_range_map _ _ _ hj]
    rw [getD_append_four]
    simp only [List.length_cons, List.length_nil, List.length_replicate]
    simp only [getitem]
    by_cases hA : j < 0 + 1 + 1
    · rw [if_pos hA]
      rw [if_neg (by omega), if_pos (Or.inl (by omega))]
      exact (getD_pair_zero j).symm
    · rw [if_neg hA]
      by_cases hB : j - (0 + 1 + 1) < s.initial_coefficients.length
      · rw [if_pos hB]
        rw [if_neg (by omega), if_neg (by omega)]
        have hidx : (s.approximate_order - 2 + (j : ℤ) -
            s.approximate_order).toNat = j - (0 + 1 + 1) := by omega
        rw [hidx]
      · rw [if_neg hB]
        by_cases hC : j - (0 + 1 + 1) - s.initial_coefficients.length <
            (s.degree - s.approximate_order -
              (s.initial_coefficients.length : ℤ)).toNat
        · rw [if_pos hC]
          rw [if_neg (by omega), if_pos (Or.inr (by omega))]
          rw [getD_replicate _ _ _ hC]
        · rw [if_neg hC]
          rw [if_pos (by omega)]
          rw [getD_replicate _ _ _ (by omega)]

theorem mk_window (s : ExactRep R) (hcan : Canonical s) :
    mk (window s) (some s.constant) none (some (s.approximate_order - 2)) =
      some s := by
  rw [window_eq s hcan]
  obtain ⟨ic, ord, deg, c⟩ := s
  obtain ⟨h1, h2, h3, h4, h5, h6⟩ := hcan
  dsimp only at h1 h2 h3 h4 h5 h6 ⊢
  cases ic with
  | nil =>
      obtain ⟨hc0, hod⟩ := h2 rfl
      simp only [List.length_nil, Nat.cast_zero, sub_zero] at h1 ⊢
      have hz : (deg - ord).toNat = 0 := by omega
      rw [hz]
      simp only [List.replicate_zero, List.nil_append]
      simp only [List.cons_append, List.nil_append]
      rw [show (List.replicate 5 c) = c :: List.replicate 4 c from rfl]
      simp only [mk, Option.getD_some, mkDegree]
      rw [if_pos le_rfl]
      have hdw : (0 :: 0 :: c :: List.replicate 4 c).dropWhile
          (fun v => v == 0) = c :: List.replicate 4 c := by
        rw [List.dropWhile_cons, if_pos (by simp), List.dropWhile_cons,
          if_pos (by simp), List.dropWhile_cons, if_neg (by simp [hc0])]
      rw [mkStripped_cons _ _ _ _ _ _ hdw]
      have harg : ord - 2 + (((0 :: 0 :: c :: List.replicate 4 c).length -
          (c :: List.replicate 4 c).length : ℕ) : ℤ) = ord := by
        simp only [List.length_cons, List.length_replicate]
        omega
      rw [harg]
      have hdeg5 : ord - 2 +
          (((0 :: 0 :: c :: List.replicate 4 c).length : ℕ) : ℤ) = deg + 5 := by
        simp only [List.length_cons, List.length_replicate]
        omega
      rw [hdeg5]
      simp only [mkTail]
      have hifc : ord + (((c :: List.replicate 4 c).length : ℕ) : ℤ) =
          deg + 5 := by
        simp only [List.length_cons, List.length_replicate]
        omega
      rw [if_pos hifc]
      dsimp only
      have hl2 : dropTail (fun w => w == c) (c :: List.replicate 4 c) = [] := by
        apply dropTail_all
        intro x hx
        have hx' : x = c := by
          rcases List.mem_cons.mp hx with h | h
          · exact h
          · exact List.eq_of_mem_replicate h
        simp [hx']
      rw [hl2, dropTail_nil]
      rw [if_neg (fun hx => hc0 hx.2)]
      have hd2 : deg + 5 - (((c :: List.replicate 4 c).length -
          ([] : List R).length : ℕ) : ℤ) = deg := by
        simp only [List.length_cons, List.length_replicate, List.length_nil]
        omega
      rw [hd2]
  | cons a t =>
      have ha : a ≠ 0 := h3 a t rfl
      have hane : a :: t ≠ [] := List.cons_ne_nil a t
      set G := (deg - ord - ((a :: t).length : ℤ)).toNat with hGdef
      simp only [List.length_cons] at h1 hGdef
      simp only [mk, Option.getD_some, mkDegree]
      rw [if_pos le_rfl]
      have hdw : (([(0 : R), 0] ++ ((a :: t) ++
          (List.replicate G 0 ++ List.replicate 5 c))).dropWhile
          (fun v => v == 0)) =
          a :: (t ++ (List.replicate G 0 ++ List.replicate 5 c)) := by
        simp only [List.cons_append, List.nil_append]
        rw [List.dropWhile_cons, if_pos (by simp), List.dropWhile_cons,
          if_pos (by simp), List.dropWhile_cons, if_neg (by simp [ha])]
      rw [mkStripped_cons _ _ _ _ _ _ hdw]
      have harg : ord - 2 + ((([(0 : R), 0] ++ ((a :: t) ++
          (List.replicate G 0 ++ List.replicate 5 c))).length -
          (a :: (t ++ (List.replicate G 0 ++ List.replicate 5 c))).length :
            ℕ) : ℤ) = ord := by
        simp only [List.length_append, List.length_cons, List.length_nil,
          List.length_replicate]
        omega
      rw [harg]
      have hdeg5 : ord - 2 + ((([(0 : R), 0] ++ ((a :: t) ++
          (List.replicate G 0 ++ List.replicate 5 c))).length : ℕ) : ℤ) =
          deg + 5 := by
        simp only [List.length_append, List.length_cons, List.length_nil,
          List.length_replicate]
        omega
      rw [hdeg5]
      by_cases hG0 : G = 0
      · rw [hG0]
        simp only [List.replicate_zero, List.nil_append]
        have hre : ord + (((a :: t).length : ℕ) : ℤ) = deg := by
          simp only [List.length_cons]
          omega
        have hsplit : a :: (t ++ List.replicate 5 c) =
            (a :: t) ++ List.replicate 5 c := rfl
        rw [hsplit]
        simp only [mkTail]
        have hifc : ord + ((((a :: t) ++ List.replicate 5 c).length : ℕ) : ℤ) =
            deg + 5 := by
          simp only [List.length_append, List.length_cons, List.length_replicate]
          omega
        rw [if_pos hifc]
        dsimp only
        have hl2 : dropTail (fun w => w == c)
            ((a :: t) ++ List.replicate 5 c) = a :: t := by
          refine dropTail_concat _ _ _ ?_ hane ?_
          · intro x hx
            simp [List.eq_of_mem_replicate hx]
          · exact beq_eq_false_iff_ne.mpr (h5 hre hane)
        rw [hl2]
        have hl3 : dropTail (fun w => w == (0 : R)) (a :: t) = a :: t :=
          dropTail_noop _ _ hane (beq_eq_false_iff_ne.mpr (h4 hane))
        rw [hl3]
        rw [if_neg (fun hx => hane hx.1)]
        have hd2 : deg + 5 - ((((a :: t) ++ List.replicate 5 c).length -
            (a :: t).length : ℕ) : ℤ) = deg := by
          simp only [List.length_append, List.length_cons, List.length_replicate]
          omega
        rw [hd2]
      · have hc0 : c ≠ 0 := by
          intro hcc
          have h6c := h6 hcc
          simp only [List.length_cons] at h6c
          exact hG0 (by omega)
        have hGne : List.replicate G 0 ≠ ([] : List R) := by
          intro hnil
          exact hG0 (by simpa using congrArg List.length hnil)
        have hsplit : a :: (t ++ (List.replicate G 0 ++ List.replicate 5 c)) =
            ((a :: t) ++ List.replicate G 0) ++ List.replicate 5 c := by
          simp
        rw [hsplit]
        simp only [mkTail]
        have hifc : ord + (((((a :: t) ++ List.replicate G 0) ++
            List.replicate 5 c).length : ℕ) : ℤ) = deg + 5 := by
          simp only [List.length_append, List.length_cons, List.length_replicate]
          omega
        rw [if_pos hifc]
        dsimp only
        have hl1ne : (a :: t) ++ List.replicate G 0 ≠ [] := by
          simp
        have hl2 : dropTail (fun w => w == c)
            (((a :: t) ++ List.replicate G 0) ++ List.replicate 5 c) =
            (a :: t) ++ List.replicate G 0 := by
          refine dropTail_concat _ _ _ ?_ hl1ne ?_
          · intro x hx
            simp [List.eq_of_mem_replicate hx]
          · rw [List.getLast_append_of_ne_nil hGne, List.getLast_replicate]
            exact beq_eq_false_iff_ne.mpr (fun hcontra => hc0 hcontra.symm)
        rw [hl2]
        have hl3 : dropTail (fun w => w == (0 : R))
            ((a :: t) ++ List.replicate G 0) = a :: t := by
          refine dropTail_concat _ _ _ ?_ hane ?_
          · intro x hx
            simp [List.eq_of_mem_replicate hx]
          · exact beq_eq_false_iff_ne.mpr (h4 hane)
        rw [hl3]
        rw [if_neg (fun hx => hane hx.1)]
        have hd2 : deg + 5 - (((((a :: t) ++ List.replicate G 0) ++
            List.replicate 5 c).length -
            ((a :: t) ++ List.replicate G 0).length : ℕ) : ℤ) = deg := by
          simp only [List.length_append, List.length_cons, List.length_nil,
            List.length_replicate]
          omega
        rw [hd2]

/-- `Stream_exact.__eq__`: structural comparison of the four stored
fields (for two exact streams the `isinstance` check always holds). -/
def eq (s t : ExactRep R) : Bool :=
  s.degree == t.degree && s.approximate_order == t.approximate_order &&
    decide (s.initial_coefficients = t.initial_coefficients) &&
    s.constant == t.constant

end Stream_exact

/-- Claim C3: re-running the exact-stream constructor on the coefficient
window `[s[i] for i in range(order - 2, degree + 5)]` with the anchor
order `order - 2` and the same constant reproduces any constructed exact
stream `s` exactly: the constructor's stripping of leading zeros, of the
constant-matching suffix and of trailing zeros canonicalizes the
representation, and structural comparison of the four stored fields
decides equality of exact streams. -/
theorem claim_C3_exact_canonical_roundtrip (init : List R) (copt : Option R)
    (dopt oopt : Option ℤ) (s : ExactRep R)
    (h : Stream_exact.mk init copt dopt oopt = some s) :
    Stream_exact.mk (Stream_exact.window s) (some s.constant) none
        (some (s.approximate_order - 2)) = some s ∧
      ∀ t : ExactRep R, (Stream_exact.eq s t = true ↔ s = t) := by
  refine ⟨Stream_exact.mk_window s (Stream_exact.mk_canonical _ _ _ _ _ h), ?_⟩
  intro t
  constructor
  · intro he
    simp only [Stream_exact.eq, Bool.and_eq_true, beq_iff_eq,
      decide_eq_true_eq] at he
    obtain ⟨⟨⟨hd, ho⟩, hi⟩, hc⟩ := he
    cases s
    cases t
    simp_all
  · intro he
    subst he
    simp [Stream_exact.eq]

theorem claim_C3_exact_canonical_roundtrip_witness :
    Stream_exact.mk ([1] : List ℤ) none none none =
        some ⟨[1], 0, 1, 0⟩ ∧
      (Stream_exact.mk (Stream_exact.window (⟨[1], 0, 1, 0⟩ : ExactRep ℤ))
          (some (0 : ℤ)) none (some (0 - 2)) = some ⟨[1], 0, 1, 0⟩ ∧
        ∀ t : ExactRep ℤ,
          (Stream_exact.eq ⟨[1], 0, 1, 0⟩ t = true ↔ ⟨[1], 0, 1, 0⟩ = t)) :=
  ⟨by decide,
    claim_C3_exact_canonical_roundtrip [1] none none none ⟨[1], 0, 1, 0⟩
      (by decide)⟩

end ExactConstructor